import Mathlib

/-!
# Verification of the DevTrader compounding-plan and demo-trading engines

Shallow embedding of the core of `src/App.jsx`:

* the plan recalculation engine `recalculatePlan` (source lines 164-221),
* the demo-trader position ledger: `handleMarketOrder` (589-634),
  `handleClosePosition` (407-443) and `checkPriceTriggers` (447-480).

Numbers are modelled as `ℚ` (the JS engine computes with IEEE doubles; every
claim below is stated in the exact-arithmetic idealization that the spec
itself uses).  JS `Math.round` is `round : ℚ → ℤ` — both round halves up,
also for negative arguments (`Math.round(-1.5) = -1 = round (-3/2)`).

The required daily rate `Math.pow(finalTarget/initialCapital, 1/tenure) - 1`
is an irrational real; the recalculation pass is therefore embedded
parametrically in the rate `r : ℚ` (the guarded value `initialDailyRate` of
source line 177).  All structural claims about the pass hold for every rate,
which covers the rate actually derived from the config; the one numerical
claim about the rate itself is settled against `(20 : ℝ) ^ (66⁻¹)` directly.

Fields deliberately not modelled (inessential to every claim): wall-clock
strings (`openTime`, `closeTime`), the TradingView `chartOrder` annotation
handle (an external resource the ledger ignores), and the user-facing
notification messages.
-/

/-! ## Data model: the plan document (source lines 137-151 and §6 of the spec) -/

/-- One checklist entry of a day's `rules` array. -/
structure Rule where
  text : String
  checked : Bool
deriving DecidableEq, Repr

/-- One trading day of the plan calendar (the object pushed at source line
137).  `actual` is the day's recorded-outcome entry: the source keeps it as a
string and uses it only through the tests `day.actual !== ""` and
`Number(day.actual) || 0`; we model it as `none` for the empty string and
`some v` for an entry whose numeric value (`Number(...) || 0`, with `NaN`
collapsed to `0`) is `v`. -/
structure Day where
  day : ℤ
  date : String
  capital : ℚ
  target : ℚ
  profit : ℚ
  dailyRate : ℚ
  achieved : Bool
  pnlSign : String
  actual : Option ℚ
  winningTrades : String
  losingTrades : String
  logic : String
  rules : List Rule
deriving DecidableEq, Repr

/-- A month group of the calendar (source line 131). -/
structure Month where
  id : ℤ
  monthName : String
  days : List Day
deriving DecidableEq, Repr

/-- The configuration part of a plan document read by `recalculatePlan`
(source line 165). -/
structure Config where
  initialCapital : ℚ
  finalTarget : ℚ
  tenure : ℤ
deriving DecidableEq, Repr

/-- Placeholder day used as the (unreachable) default of list lookups. -/
def defaultDay : Day :=
  ⟨0, "", 0, 0, 0, 0, false, "+", none, "", "", "", []⟩

/-! ## The plan recalculation engine (source lines 164-221) -/

/-- Input sanitization of `recalculatePlan`, source lines 167-170:
`validTenure`, `validInitialCapital`, `validFinalTarget`. -/
def sanitizeConfig (c : Config) : Config :=
  let validTenure := if c.tenure > 0 then c.tenure else 66
  let validInitialCapital := if c.initialCapital > 0 then c.initialCapital else 50000
  let validFinalTarget :=
    if c.finalTarget > validInitialCapital then c.finalTarget else validInitialCapital * 2
  ⟨validInitialCapital, validFinalTarget, validTenure⟩

/-- One entry of the `plannedGoals` array (source line 185). -/
structure Goal where
  target : ℚ
  profit : ℚ
deriving DecidableEq, Repr

/-- The ideal-plan loop of source lines 180-187: starting from capital `cap`,
compound `n` steps at rate `r`, recording the rounded target and profit of
each step; the running `plannedCapital` advances to the unrounded target. -/
def plannedGoalsLoop (r : ℚ) : ℕ → ℚ → List Goal
  | 0, _ => []
  | n + 1, cap =>
    let plannedTarget := cap * (1 + r)
    ⟨((round plannedTarget : ℤ) : ℚ), ((round (plannedTarget - cap) : ℤ) : ℚ)⟩ ::
      plannedGoalsLoop r n plannedTarget

/-- The `plannedGoals` array built by `recalculatePlan` for a sanitized
config `c` at rate `r`. -/
def plannedGoals (r : ℚ) (c : Config) : List Goal :=
  plannedGoalsLoop r c.tenure.toNat c.initialCapital

/-- The mutable state of the actual-path walk of source lines 189-219:
the (possibly extended) `plannedGoals` array, the running unrounded
`actualCapital`, and `totalDaysElapsed`. -/
structure RState where
  goals : List Goal
  cap : ℚ
  n : ℕ
deriving DecidableEq, Repr

/-- The body of the `for (let day of allDays)` loop, source lines 193-218:
extend the goals if the calendar outgrew them (195-199), assign the day's
ideal target/profit (200-201), its rounded start capital (204) and its
required daily rate (207), then advance `actualCapital` — by the signed
recorded outcome if the day has one, otherwise to the day's ideal target
(210-217).  `extendGoals` is the goals extension of lines 195-199: if the
calendar outgrew the goals, push a copy of the last goal (with the
`{target: actualCapital, profit: 0}` fallback for an empty goals array). -/
def extendGoals (s : RState) : List Goal :=
  if s.goals.length ≤ s.n then s.goals ++ [s.goals.getLastD ⟨s.cap, 0⟩] else s.goals

/-- The goal entry read for the current day (`plannedGoals[totalDaysElapsed]`,
source line 200, after the possible extension). -/
def goalAt (s : RState) : Goal := (extendGoals s).getD s.n ⟨0, 0⟩

def stepDay (s : RState) (d : Day) : Day × RState :=
  let g := goalAt s
  let d' := { d with
    target := g.target
    profit := g.profit
    capital := ((round s.cap : ℤ) : ℚ)
    dailyRate := if s.cap > 0 ∧ g.target > s.cap then g.target / s.cap - 1 else 0 }
  let cap' :=
    match d.actual with
    | some v => s.cap + (if d.pnlSign = "+" then v else -v)
    | none => g.target
  (d', ⟨extendGoals s, cap', s.n + 1⟩)

/-- The actual-path walk over a list of days, threading the walk state. -/
def walkDays (s : RState) : List Day → List Day × RState
  | [] => ([], s)
  | d :: ds =>
    let p := stepDay s d
    let rest := walkDays p.2 ds
    (p.1 :: rest.1, rest.2)

/-- The actual-path walk over the month groups: the source flattens
`newMonths` into `allDays` (line 173) and mutates the day objects in place,
which is the same as walking month by month carrying the state. -/
def walkMonths (s : RState) : List Month → List Month × RState
  | [] => ([], s)
  | m :: ms =>
    let p := walkDays s m.days
    let rest := walkMonths p.2 ms
    ({ m with days := p.1 } :: rest.1, rest.2)

/-- `recalculatePlan` (source lines 164-221), parametric in the guarded daily
rate `r` (`initialDailyRate`, line 177).  The source deep-copies `months`
and mutates the copy; the value it returns is this pure transformation
(the copying itself is modelled and verified separately, see the heap model
below). -/
def recalculatePlan (r : ℚ) (cfg : Config) (months : List Month) : List Month :=
  let c := sanitizeConfig cfg
  (walkMonths ⟨plannedGoals r c, c.initialCapital, 0⟩ months).1

/-- All days of a months array, in calendar order (`flatMap` of source
line 173). -/
def flatDays (months : List Month) : List Day :=
  months.foldr (fun m acc => m.days ++ acc) []

/-- The signed outcome recorded on a day (source lines 211-212):
`Number(day.actual) || 0`, negated unless `pnlSign` is `"+"`. -/
def signedOutcome (d : Day) : Option ℚ :=
  d.actual.map (fun v => if d.pnlSign = "+" then v else -v)

/-- A rational that is a whole number (denominator 1). -/
def IsIntQ (q : ℚ) : Prop := q.den = 1

/-! ### Arithmetic helpers -/

/-- Concrete evaluation helper for JS `Math.round` = `round` on `ℚ`. -/
theorem round_eq_int (q : ℚ) (z : ℤ) (h₁ : (z : ℚ) - 1 / 2 ≤ q) (h₂ : q < (z : ℚ) + 1 / 2) :
    round q = z := by
  rw [round_eq, Int.floor_eq_iff]
  exact ⟨by linarith, by linarith⟩

/-! ## Structural lemmas about the walk -/

theorem walkDays_nil (s : RState) : walkDays s [] = ([], s) := rfl

theorem walkDays_cons (s : RState) (d : Day) (ds : List Day) :
    walkDays s (d :: ds) =
      ((stepDay s d).1 :: (walkDays (stepDay s d).2 ds).1, (walkDays (stepDay s d).2 ds).2) := rfl

theorem walkDays_append (s : RState) (xs ys : List Day) :
    walkDays s (xs ++ ys) =
      ((walkDays s xs).1 ++ (walkDays (walkDays s xs).2 ys).1,
        (walkDays (walkDays s xs).2 ys).2) := by
  induction xs generalizing s with
  | nil => simp [walkDays]
  | cons d ds ih => simp [walkDays_cons, ih]

theorem flatDays_nil : flatDays [] = [] := rfl

theorem flatDays_cons (m : Month) (ms : List Month) :
    flatDays (m :: ms) = m.days ++ flatDays ms := rfl

/-- Walking month by month is walking the flattened calendar: the source
mutates the days through the flattened alias `allDays` (line 173). -/
theorem walkMonths_eq_walkDays (ms : List Month) : ∀ s : RState,
    flatDays (walkMonths s ms).1 = (walkDays s (flatDays ms)).1 ∧
    (walkMonths s ms).2 = (walkDays s (flatDays ms)).2 := by
  induction ms with
  | nil => intro s; simp [walkMonths, flatDays, walkDays]
  | cons m ms ih =>
    intro s
    simp only [walkMonths, flatDays_cons, walkDays_append, flatDays_cons]
    exact ⟨by rw [(ih _).1], by rw [(ih _).2]⟩

/-! ## C1: idempotence of the recalculation -/

/-- Re-running the loop body on an already-recalculated day from the same
walk state reproduces the day and the state: the body reads only the walk
state and the day's journal fields, which it does not write. -/
theorem stepDay_idem (s : RState) (d : Day) : stepDay s (stepDay s d).1 = stepDay s d := by
  cases d with
  | mk day date capital target profit dailyRate achieved pnlSign actual win lose logic rules =>
    cases actual <;> simp [stepDay]

theorem walkDays_idem (ds : List Day) : ∀ s : RState,
    walkDays s (walkDays s ds).1 = walkDays s ds := by
  induction ds with
  | nil => intro s; simp [walkDays]
  | cons d ds ih => intro s; simp [walkDays_cons, stepDay_idem, ih]

theorem walkMonths_idem (ms : List Month) : ∀ s : RState,
    walkMonths s (walkMonths s ms).1 = walkMonths s ms := by
  induction ms with
  | nil => intro s; simp [walkMonths]
  | cons m ms ih => intro s; simp [walkMonths, walkDays_idem, ih]

/-- C1.  For every plan document (any config, so in particular every valid
`PlanConfig`) and every daily rate, recalculation is idempotent: feeding the
months array produced by `recalculatePlan` back into `recalculatePlan` with
the same config yields a field-for-field identical months array. -/
theorem recalculatePlan_idempotent (r : ℚ) (cfg : Config) (months : List Month) :
    recalculatePlan r cfg (recalculatePlan r cfg months) = recalculatePlan r cfg months := by
  simp [recalculatePlan, walkMonths_idem]

/-! ## C8: the recalculation writes only the financial fields -/

/-- The journal-side projection of a day: its number, date and all journal
fields (`achieved`, `pnlSign`, `actual`, `winningTrades`, `losingTrades`,
`logic`, `rules`). -/
def dayView (d : Day) :=
  (d.day, d.date, d.achieved, d.pnlSign, d.actual,
    d.winningTrades, d.losingTrades, d.logic, d.rules)

/-- Everything of a month except its days' financial fields. -/
def monthView (m : Month) := (m.id, m.monthName, m.days.map dayView)

/-- Everything of a months array except the financial fields. -/
def journalView (months : List Month) := months.map monthView

theorem walkDays_journal (ds : List Day) : ∀ s : RState,
    (walkDays s ds).1.map dayView = ds.map dayView := by
  induction ds with
  | nil => intro s; simp [walkDays]
  | cons d ds ih => intro s; simp [walkDays_cons, ih, stepDay, dayView]

theorem walkMonths_journal (ms : List Month) : ∀ s : RState,
    journalView (walkMonths s ms).1 = journalView ms := by
  induction ms with
  | nil => intro s; simp [walkMonths, journalView]
  | cons m ms ih =>
    intro s
    simp only [walkMonths, journalView, List.map_cons, monthView]
    rw [walkDays_journal]
    have := ih (walkDays s m.days).2
    simp only [journalView] at this
    rw [this]

/-- C8.  Recalculation writes only `capital`, `target`, `profit` and
`dailyRate`: the month ids and names, the day numbers and dates, and every
journal field are identical between input and output. -/
theorem recalculatePlan_journal_frame (r : ℚ) (cfg : Config) (months : List Month) :
    journalView (recalculatePlan r cfg months) = journalView months := by
  rw [recalculatePlan, walkMonths_journal]

/-! ## C7: config sanitization -/

/-- The three sanitized values are valid: positive tenure, positive capital,
and a final target strictly above the capital. -/
theorem sanitizeConfig_pos (c : Config) :
    0 < (sanitizeConfig c).tenure ∧ 0 < (sanitizeConfig c).initialCapital ∧
      (sanitizeConfig c).initialCapital < (sanitizeConfig c).finalTarget := by
  simp only [sanitizeConfig]
  refine ⟨by split <;> omega, by split <;> [assumption; norm_num], ?_⟩
  by_cases hic : c.initialCapital > 0
  · simp only [if_pos hic]
    by_cases hft : c.finalTarget > c.initialCapital
    · simpa [if_pos hft] using hft
    · simp only [if_neg hft]
      linarith
  · simp only [if_neg hic]
    by_cases hft : c.finalTarget > (50000 : ℚ)
    · simpa [if_pos hft] using hft
    · simp only [if_neg hft]
      norm_num

/-- A config that is already valid is left unchanged by sanitization. -/
theorem sanitizeConfig_eq_self (c : Config) (h1 : 0 < c.tenure) (h2 : 0 < c.initialCapital)
    (h3 : c.initialCapital < c.finalTarget) : sanitizeConfig c = c := by
  have e1 : (if c.tenure > 0 then c.tenure else 66) = c.tenure := if_pos h1
  have e2 : (if c.initialCapital > 0 then c.initialCapital else 50000) = c.initialCapital :=
    if_pos h2
  simp only [sanitizeConfig, e1, e2, if_pos h3]

/-- The sanitized config is a fixed point of sanitization. -/
theorem sanitizeConfig_idem (c : Config) :
    sanitizeConfig (sanitizeConfig c) = sanitizeConfig c :=
  sanitizeConfig_eq_self _ (sanitizeConfig_pos c).1 (sanitizeConfig_pos c).2.1
    (sanitizeConfig_pos c).2.2

/-- C7.  Recalculation sanitizes its config before any computation and (being
a total function) never fails: a non-positive tenure becomes the default 66,
a non-positive initial capital becomes the default 50000, and a final target
not exceeding the (sanitized) initial capital is forced to twice that
capital; the financial fields are derived only from the sanitized values. -/
theorem recalculatePlan_sanitizes (r : ℚ) (cfg : Config) (months : List Month) :
    recalculatePlan r cfg months = recalculatePlan r (sanitizeConfig cfg) months ∧
    (sanitizeConfig cfg).tenure = (if 0 < cfg.tenure then cfg.tenure else 66) ∧
    (sanitizeConfig cfg).initialCapital =
      (if 0 < cfg.initialCapital then cfg.initialCapital else 50000) ∧
    (sanitizeConfig cfg).finalTarget =
      (if (sanitizeConfig cfg).initialCapital < cfg.finalTarget then cfg.finalTarget
        else 2 * (sanitizeConfig cfg).initialCapital) := by
  refine ⟨by rw [recalculatePlan, recalculatePlan, sanitizeConfig_idem], rfl, rfl, ?_⟩
  by_cases hic : cfg.initialCapital > 0
  · simp only [sanitizeConfig, if_pos hic]
    by_cases hft : cfg.finalTarget > cfg.initialCapital
    · simp [if_pos hft, hft]
    · simp only [if_neg hft, hft, if_false]
      ring
  · simp only [sanitizeConfig, if_neg hic]
    by_cases hft : cfg.finalTarget > (50000 : ℚ)
    · simp [if_pos hft, hft]
    · simp only [if_neg hft, hft, if_false]
      ring

/-! ## Whole-number rationals -/

theorem IsIntQ_iff {q : ℚ} : IsIntQ q ↔ ∃ z : ℤ, q = (z : ℚ) := by
  constructor
  · intro h
    exact ⟨q.num, ((Rat.den_eq_one_iff q).mp h).symm⟩
  · rintro ⟨z, rfl⟩
    exact Rat.den_intCast z

theorem IsIntQ.intCast (z : ℤ) : IsIntQ ((z : ℤ) : ℚ) := Rat.den_intCast z

theorem IsIntQ.add {a b : ℚ} (ha : IsIntQ a) (hb : IsIntQ b) : IsIntQ (a + b) := by
  obtain ⟨x, rfl⟩ := IsIntQ_iff.mp ha
  obtain ⟨y, rfl⟩ := IsIntQ_iff.mp hb
  exact IsIntQ_iff.mpr ⟨x + y, by push_cast; ring⟩

theorem IsIntQ.neg {a : ℚ} (ha : IsIntQ a) : IsIntQ (-a) := by
  obtain ⟨x, rfl⟩ := IsIntQ_iff.mp ha
  exact IsIntQ_iff.mpr ⟨-x, by push_cast; ring⟩

/-- Rounding is the identity on whole numbers. -/
theorem IsIntQ.round_cast {a : ℚ} (ha : IsIntQ a) : ((round a : ℤ) : ℚ) = a := by
  obtain ⟨x, rfl⟩ := IsIntQ_iff.mp ha
  rw [round_intCast]

/-- Every target recorded in the ideal-plan array is a rounded, hence whole,
number. -/
theorem plannedGoalsLoop_target_int (r : ℚ) :
    ∀ (n : ℕ) (cap : ℚ), ∀ g ∈ plannedGoalsLoop r n cap, IsIntQ g.target := by
  intro n
  induction n with
  | zero => intro cap g hg; simp [plannedGoalsLoop] at hg
  | succ n ih =>
    intro cap g hg
    simp only [plannedGoalsLoop, List.mem_cons] at hg
    rcases hg with rfl | hg
    · exact IsIntQ.intCast _
    · exact ih _ g hg

theorem plannedGoalsLoop_length (r : ℚ) :
    ∀ (n : ℕ) (cap : ℚ), (plannedGoalsLoop r n cap).length = n := by
  intro n
  induction n with
  | zero => intro cap; rfl
  | succ n ih => intro cap; simp [plannedGoalsLoop, ih]

theorem getLastD_mem_or {α : Type} (l : List α) (d : α) :
    l.getLastD d ∈ l ∨ l.getLastD d = d := by
  induction l generalizing d with
  | nil => exact Or.inr rfl
  | cons a as ih =>
    rw [List.getLastD_cons]
    rcases ih a with h | h
    · exact Or.inl (List.mem_cons_of_mem _ h)
    · exact Or.inl (by rw [h]; exact List.mem_cons_self _ _)

theorem getLastD_mem_of_ne {α : Type} (l : List α) (d : α) (h : l ≠ []) : l.getLastD d ∈ l := by
  induction l generalizing d with
  | nil => exact absurd rfl h
  | cons a as ih =>
    rw [List.getLastD_cons]
    cases as with
    | nil => simp [List.getLastD]
    | cons b bs => exact List.mem_cons_of_mem _ (ih a (by simp))

theorem getD_mem_or {α : Type} (l : List α) (n : ℕ) (d : α) :
    l.getD n d ∈ l ∨ l.getD n d = d := by
  by_cases h : n < l.length
  · rw [List.getD_eq_getElem l d h]
    exact Or.inl (List.getElem_mem h)
  · exact Or.inr (List.getD_eq_default l d (le_of_not_lt h))

/-! ## Invariants of the walk state -/

/-- Reading off the components of `stepDay`. -/
theorem stepDay_fst (s : RState) (d : Day) :
    (stepDay s d).1 = { d with
      target := (goalAt s).target
      profit := (goalAt s).profit
      capital := ((round s.cap : ℤ) : ℚ)
      dailyRate :=
        if s.cap > 0 ∧ (goalAt s).target > s.cap then (goalAt s).target / s.cap - 1 else 0 } :=
  rfl

theorem stepDay_goals (s : RState) (d : Day) : (stepDay s d).2.goals = extendGoals s := rfl

theorem stepDay_cap (s : RState) (d : Day) :
    (stepDay s d).2.cap = (match d.actual with
      | some v => s.cap + (if d.pnlSign = "+" then v else -v)
      | none => (goalAt s).target) := rfl

theorem extendGoals_target_int {s : RState} (hcap : IsIntQ s.cap)
    (hg : ∀ g ∈ s.goals, IsIntQ g.target) : ∀ g ∈ extendGoals s, IsIntQ g.target := by
  intro g hmem
  unfold extendGoals at hmem
  split at hmem
  · simp only [List.mem_append, List.mem_singleton] at hmem
    rcases hmem with h | rfl
    · exact hg g h
    · rcases getLastD_mem_or s.goals ⟨s.cap, 0⟩ with h | h
      · exact hg _ h
      · rw [h]; exact hcap
  · exact hg g hmem

theorem extendGoals_target_int_of_ne {s : RState} (hne : s.goals ≠ [])
    (hg : ∀ g ∈ s.goals, IsIntQ g.target) : ∀ g ∈ extendGoals s, IsIntQ g.target := by
  intro g hmem
  unfold extendGoals at hmem
  split at hmem
  · simp only [List.mem_append, List.mem_singleton] at hmem
    rcases hmem with h | rfl
    · exact hg g h
    · exact hg _ (getLastD_mem_of_ne s.goals ⟨s.cap, 0⟩ hne)
  · exact hg g hmem

theorem extendGoals_ne {s : RState} (hne : s.goals ≠ []) : extendGoals s ≠ [] := by
  unfold extendGoals
  split
  · simp
  · exact hne

theorem goalAt_target_int {s : RState} (hcap : IsIntQ s.cap)
    (hg : ∀ g ∈ s.goals, IsIntQ g.target) : IsIntQ (goalAt s).target := by
  unfold goalAt
  rcases getD_mem_or (extendGoals s) s.n ⟨0, 0⟩ with h | h
  · exact extendGoals_target_int hcap hg _ h
  · rw [h]; exact IsIntQ.intCast 0

theorem goalAt_target_int_of_ne {s : RState} (hne : s.goals ≠ [])
    (hg : ∀ g ∈ s.goals, IsIntQ g.target) : IsIntQ (goalAt s).target := by
  unfold goalAt
  rcases getD_mem_or (extendGoals s) s.n ⟨0, 0⟩ with h | h
  · exact extendGoals_target_int_of_ne hne hg _ h
  · rw [h]; exact IsIntQ.intCast 0

/-- Walking one day preserves "the running capital and all goal targets are
whole numbers", provided the day's recorded outcome (if any) is whole. -/
theorem stepDay_int_invariant {s : RState} {d : Day} (hcap : IsIntQ s.cap)
    (hg : ∀ g ∈ s.goals, IsIntQ g.target)
    (hd : ∀ v, d.actual = some v → IsIntQ v) :
    IsIntQ (stepDay s d).2.cap ∧ ∀ g ∈ (stepDay s d).2.goals, IsIntQ g.target := by
  refine ⟨?_, extendGoals_target_int hcap hg⟩
  rw [stepDay_cap]
  cases h : d.actual with
  | some v =>
    have hv := hd v h
    dsimp only
    split
    · exact hcap.add hv
    · exact hcap.add hv.neg
  | none => exact goalAt_target_int hcap hg

theorem stepDay_goals_invariant {s : RState} {d : Day} (hne : s.goals ≠ [])
    (hg : ∀ g ∈ s.goals, IsIntQ g.target) :
    (stepDay s d).2.goals ≠ [] ∧ ∀ g ∈ (stepDay s d).2.goals, IsIntQ g.target :=
  ⟨extendGoals_ne hne, extendGoals_target_int_of_ne hne hg⟩

/-! ## C2: the start-capital recurrence -/

/-- The consecutive-day property claimed for the recalculated calendar: a day
with no recorded outcome hands its ideal target to the next day's start
capital, and a day with signed outcome `s` advances the (rounded) start
capital by `s`. -/
def capitalStep (d d' : Day) : Prop :=
  (d.actual = none → d'.capital = d.target) ∧
  ∀ s, signedOutcome d = some s → d'.capital = ((round (d.capital + s) : ℤ) : ℚ)

/-- The unconditional half of `capitalStep`: ideal progression on unfilled
days. -/
def idealStep (d d' : Day) : Prop := d.actual = none → d'.capital = d.target

/-- Journal fields pass through `stepDay` unchanged. -/
theorem stepDay_actual (s : RState) (d : Day) : (stepDay s d).1.actual = d.actual := rfl

theorem stepDay_signedOutcome (s : RState) (d : Day) :
    signedOutcome (stepDay s d).1 = signedOutcome d := rfl

/-- The start capital emitted for the first walked day is the rounded running
capital. -/
theorem walkDays_head_capital (s : RState) (ds : List Day) :
    ∀ dh ∈ (walkDays s ds).1.head?, dh.capital = ((round s.cap : ℤ) : ℚ) := by
  cases ds with
  | nil => intro dh hdh; simp [walkDays] at hdh
  | cons d ds =>
    intro dh hdh
    rw [walkDays_cons] at hdh
    simp only [List.head?_cons, Option.mem_def, Option.some.injEq] at hdh
    rw [← hdh, stepDay_fst]

/-- On whole-number data, the walk satisfies the full consecutive-day
recurrence. -/
theorem walkDays_chain_int (ds : List Day) : ∀ s : RState, IsIntQ s.cap →
    (∀ g ∈ s.goals, IsIntQ g.target) →
    (∀ d ∈ ds, ∀ v, d.actual = some v → IsIntQ v) →
    List.Chain' capitalStep (walkDays s ds).1 := by
  induction ds with
  | nil => intro s _ _ _; simp [walkDays]
  | cons d ds ih =>
    intro s hcap hg hds
    have hd : ∀ v, d.actual = some v → IsIntQ v := hds d (List.mem_cons_self _ _)
    obtain ⟨hcap', hg'⟩ := stepDay_int_invariant hcap hg hd
    have hds' : ∀ d' ∈ ds, ∀ v, d'.actual = some v → IsIntQ v :=
      fun d' h => hds d' (List.mem_cons_of_mem _ h)
    rw [walkDays_cons, List.chain'_cons']
    refine ⟨?_, ih (stepDay s d).2 hcap' hg' hds'⟩
    intro d1 hd1
    have hc1 : d1.capital = ((round (stepDay s d).2.cap : ℤ) : ℚ) :=
      walkDays_head_capital (stepDay s d).2 ds d1 hd1
    constructor
    · intro hnone
      rw [stepDay_actual] at hnone
      have hcap2 : (stepDay s d).2.cap = (goalAt s).target := by
        rw [stepDay_cap, hnone]
      rw [hc1, hcap2, (goalAt_target_int hcap hg).round_cast, stepDay_fst]
    · intro sv hsv
      rw [stepDay_signedOutcome] at hsv
      obtain ⟨v, hv, hfv⟩ := Option.map_eq_some'.mp hsv
      have hcap2 : (stepDay s d).2.cap = s.cap + sv := by
        rw [stepDay_cap, hv, ← hfv]
      have hd0 : (stepDay s d).1.capital = s.cap := by
        rw [stepDay_fst]
        exact hcap.round_cast
      rw [hc1, hcap2, hd0]

/-- Unconditionally (the goals array of a recalculation being nonempty with
whole-number targets), the walk satisfies the ideal-progression half of the
recurrence. -/
theorem walkDays_chain_ideal (ds : List Day) : ∀ s : RState, s.goals ≠ [] →
    (∀ g ∈ s.goals, IsIntQ g.target) →
    List.Chain' idealStep (walkDays s ds).1 := by
  induction ds with
  | nil => intro s _ _; simp [walkDays]
  | cons d ds ih =>
    intro s hne hg
    obtain ⟨hne', hg'⟩ := @stepDay_goals_invariant s d hne hg
    rw [walkDays_cons, List.chain'_cons']
    refine ⟨?_, ih (stepDay s d).2 hne' hg'⟩
    intro d1 hd1
    have hc1 : d1.capital = ((round (stepDay s d).2.cap : ℤ) : ℚ) :=
      walkDays_head_capital (stepDay s d).2 ds d1 hd1
    intro hnone
    rw [stepDay_actual] at hnone
    have hcap2 : (stepDay s d).2.cap = (goalAt s).target := by
      rw [stepDay_cap, hnone]
    rw [hc1, hcap2, (goalAt_target_int_of_ne hne hg).round_cast, stepDay_fst]

/-- The goals array a recalculation starts from is nonempty (the sanitized
tenure is positive) and all its targets are whole. -/
theorem plannedGoals_sane (r : ℚ) (cfg : Config) :
    plannedGoals r (sanitizeConfig cfg) ≠ [] ∧
      ∀ g ∈ plannedGoals r (sanitizeConfig cfg), IsIntQ g.target := by
  refine ⟨?_, plannedGoalsLoop_target_int r _ _⟩
  have h1 := (sanitizeConfig_pos cfg).1
  have h2 := plannedGoalsLoop_length r (sanitizeConfig cfg).tenure.toNat
    (sanitizeConfig cfg).initialCapital
  intro hnil
  unfold plannedGoals at hnil
  rw [hnil] at h2
  simp only [List.length_nil] at h2
  omega

/-- The flattened recalculated calendar is a single walk over the flattened
input calendar. -/
theorem flatDays_recalculatePlan (r : ℚ) (cfg : Config) (months : List Month) :
    flatDays (recalculatePlan r cfg months) =
      (walkDays ⟨plannedGoals r (sanitizeConfig cfg), (sanitizeConfig cfg).initialCapital, 0⟩
        (flatDays months)).1 := by
  rw [recalculatePlan]
  exact (walkMonths_eq_walkDays months _).1

/-- C2 (amended).  In the recalculated calendar, every consecutive day pair
satisfies: an unfilled day hands its ideal target to the next day's start
capital (unconditionally); and when the initial capital and every recorded
outcome are whole numbers, a day with signed outcome `s` satisfies
`startCapital[i+1] = round (startCapital[i] + s)`.  (Without the
whole-number restriction the rounded-recurrence half fails, see the
counterexample: the engine advances the unrounded running capital.) -/
theorem recalculatePlan_capital_recurrence (r : ℚ) (cfg : Config) (months : List Month) :
    List.Chain' idealStep (flatDays (recalculatePlan r cfg months)) ∧
    (IsIntQ (sanitizeConfig cfg).initialCapital →
      (∀ d ∈ flatDays months, ∀ v, d.actual = some v → IsIntQ v) →
      List.Chain' capitalStep (flatDays (recalculatePlan r cfg months))) := by
  obtain ⟨hne, hint⟩ := plannedGoals_sane r cfg
  rw [flatDays_recalculatePlan]
  exact ⟨walkDays_chain_ideal _ _ hne hint,
    fun hic hout => walkDays_chain_int _ _ hic hint hout⟩

/-! ## C3: the required daily rate -/

theorem walkDays_rate_nonneg (ds : List Day) : ∀ s : RState,
    ∀ d' ∈ (walkDays s ds).1, 0 ≤ d'.dailyRate := by
  induction ds with
  | nil => intro s d' hd'; simp [walkDays] at hd'
  | cons d ds ih =>
    intro s d' hd'
    rw [walkDays_cons] at hd'
    rcases List.mem_cons.mp hd' with rfl | h
    · rw [stepDay_fst]
      dsimp only
      split
      · rename_i hcond
        have h1 : 1 < (goalAt s).target / s.cap := (one_lt_div hcond.1).mpr hcond.2
        linarith
      · exact le_refl 0
    · exact ih _ d' h

theorem walkDays_rate_zero (ds : List Day) : ∀ s : RState, IsIntQ s.cap →
    (∀ g ∈ s.goals, IsIntQ g.target) →
    (∀ d ∈ ds, ∀ v, d.actual = some v → IsIntQ v) →
    ∀ d' ∈ (walkDays s ds).1, d'.target ≤ d'.capital → d'.dailyRate = 0 := by
  induction ds with
  | nil => intro s _ _ _ d' hd'; simp [walkDays] at hd'
  | cons d ds ih =>
    intro s hcap hg hds d' hd'
    rw [walkDays_cons] at hd'
    rcases List.mem_cons.mp hd' with rfl | h
    · intro hle
      rw [stepDay_fst] at hle ⊢
      dsimp only at hle ⊢
      rw [hcap.round_cast] at hle
      rw [if_neg]
      intro hcond
      exact absurd hcond.2 (not_lt.mpr hle)
    · exact ih _ (stepDay_int_invariant hcap hg (hds d (List.mem_cons_self _ _))).1
        (stepDay_int_invariant hcap hg (hds d (List.mem_cons_self _ _))).2
        (fun d'' hm => hds d'' (List.mem_cons_of_mem _ hm)) d' h

/-- C3 (amended).  In the recalculated calendar the required daily rate is
never negative; and when the initial capital and every recorded outcome are
whole numbers, a day whose start capital already meets its ideal target
reports a zero rate.  (Without the whole-number restriction the second half
fails at the rounded start capital, see the counterexample: the engine
compares the target against the unrounded running capital.) -/
theorem recalculatePlan_dailyRate (r : ℚ) (cfg : Config) (months : List Month) :
    (∀ d ∈ flatDays (recalculatePlan r cfg months), 0 ≤ d.dailyRate) ∧
    (IsIntQ (sanitizeConfig cfg).initialCapital →
      (∀ d ∈ flatDays months, ∀ v, d.actual = some v → IsIntQ v) →
      ∀ d ∈ flatDays (recalculatePlan r cfg months), d.target ≤ d.capital → d.dailyRate = 0) := by
  obtain ⟨hne, hint⟩ := plannedGoals_sane r cfg
  rw [flatDays_recalculatePlan]
  exact ⟨walkDays_rate_nonneg _ _,
    fun hic hout => walkDays_rate_zero _ _ hic hint hout⟩

/-! ## Concrete documents for counterexamples and witnesses -/

/-- A journal day carrying only a recorded outcome (positive sign). -/
def plainDay (a : Option ℚ) : Day := ⟨1, "", 0, 0, 0, 0, false, "+", a, "", "", "", []⟩

/-- Two consecutive days with the fractional recorded outcome `+10.6`
(as produced e.g. by trade settlement, which stores `toFixed(2)` amounts),
then an unfilled day. -/
def fractionalMonths : List Month :=
  [⟨1, "", [plainDay (some (53 / 5)), plainDay (some (53 / 5)), plainDay none]⟩]

theorem round_50000 : round ((50000 : ℚ)) = 50000 :=
  round_eq_int _ _ (by norm_num) (by norm_num)

theorem round_fracsum1 : round ((250053 : ℚ) / 5) = 50011 :=
  round_eq_int _ _ (by norm_num) (by norm_num)

theorem round_fracsum2 : round ((250106 : ℚ) / 5) = 50021 :=
  round_eq_int _ _ (by norm_num) (by norm_num)

/-- The fully recalculated days of `fractionalMonths` at rate `0`. -/
theorem fractionalMonths_eval :
    flatDays (recalculatePlan 0 ⟨50000, 100000, 3⟩ fractionalMonths) =
      [⟨1, "", 50000, 50000, 0, 0, false, "+", some (53 / 5), "", "", "", []⟩,
       ⟨1, "", 50011, 50000, 0, 0, false, "+", some (53 / 5), "", "", "", []⟩,
       ⟨1, "", 50021, 50000, 0, 0, false, "+", none, "", "", "", []⟩] := by
  norm_num [flatDays, recalculatePlan, sanitizeConfig, plannedGoals, plannedGoalsLoop,
    walkMonths, walkDays, stepDay, goalAt, extendGoals, fractionalMonths, plainDay,
    List.getD, round_50000, round_fracsum1, round_fracsum2]

/-- C2, counterexample.  With fractional recorded outcomes the claimed
recurrence `startCapital[i+1] = round(startCapital[i] + s)` fails: after two
`+10.6` days on 50000, the third day starts at `round(50021.2) = 50021`,
whereas the claim demands `round(50011 + 10.6) = 50022`. -/
theorem recalculatePlan_capital_recurrence_cex :
    signedOutcome ((flatDays (recalculatePlan 0 ⟨50000, 100000, 3⟩ fractionalMonths)).getD 1
        defaultDay) = some (53 / 5) ∧
    ((flatDays (recalculatePlan 0 ⟨50000, 100000, 3⟩ fractionalMonths)).getD 1
        defaultDay).capital = 50011 ∧
    ((flatDays (recalculatePlan 0 ⟨50000, 100000, 3⟩ fractionalMonths)).getD 2
        defaultDay).capital = 50021 ∧
    ((round ((((flatDays (recalculatePlan 0 ⟨50000, 100000, 3⟩ fractionalMonths)).getD 1
        defaultDay).capital + 53 / 5)) : ℤ) : ℚ) = 50022 ∧
    ¬ List.Chain' capitalStep (flatDays (recalculatePlan 0 ⟨50000, 100000, 3⟩
        fractionalMonths)) := by
  rw [fractionalMonths_eval]
  have r4 : round ((250108 : ℚ) / 5) = 50022 :=
    round_eq_int _ _ (by norm_num) (by norm_num)
  refine ⟨by norm_num [signedOutcome, List.getD], by norm_num [List.getD],
    by norm_num [List.getD], by norm_num [List.getD, r4], ?_⟩
  intro hch
  have h12 := (List.chain'_cons.mp (List.chain'_cons.mp hch).2).1
  have h2 := h12.2 (53 / 5) (by norm_num [signedOutcome])
  norm_num [r4] at h2

/-- Three days with whole-number outcomes `+200`, `-300`, then unfilled. -/
def wholeMonths : List Month :=
  [⟨1, "", [plainDay (some 200),
    ⟨1, "", 0, 0, 0, 0, false, "-", some 300, "", "", "", []⟩, plainDay none]⟩]

theorem wholeMonths_hyps :
    IsIntQ (sanitizeConfig ⟨50000, 100000, 3⟩).initialCapital ∧
      ∀ d ∈ flatDays wholeMonths, ∀ v, d.actual = some v → IsIntQ v := by
  constructor
  · norm_num [sanitizeConfig, IsIntQ]
  · intro d hd v hv
    simp only [flatDays, wholeMonths, plainDay, List.foldr, List.append_nil,
      List.mem_cons, List.not_mem_nil, or_false] at hd
    rcases hd with rfl | rfl | rfl
    · obtain rfl : (200 : ℚ) = v := by simpa [plainDay] using hv
      exact IsIntQ_iff.mpr ⟨200, by norm_num⟩
    · obtain rfl : (300 : ℚ) = v := by simpa using hv
      exact IsIntQ_iff.mpr ⟨300, by norm_num⟩
    · simp [plainDay] at hv

/-- C2, witness: on a document whose initial capital and recorded outcomes
are whole numbers, the full recurrence holds. -/
theorem recalculatePlan_capital_recurrence_witness :
    IsIntQ (sanitizeConfig ⟨50000, 100000, 3⟩).initialCapital ∧
    (∀ d ∈ flatDays wholeMonths, ∀ v, d.actual = some v → IsIntQ v) ∧
    List.Chain' capitalStep (flatDays (recalculatePlan 0 ⟨50000, 100000, 3⟩ wholeMonths)) ∧
    List.Chain' idealStep (flatDays (recalculatePlan 0 ⟨50000, 100000, 3⟩ wholeMonths)) :=
  ⟨wholeMonths_hyps.1, wholeMonths_hyps.2,
    (recalculatePlan_capital_recurrence 0 ⟨50000, 100000, 3⟩ wholeMonths).2
      wholeMonths_hyps.1 wholeMonths_hyps.2,
    (recalculatePlan_capital_recurrence 0 ⟨50000, 100000, 3⟩ wholeMonths).1⟩

/-- One day with the fractional outcome `+500.8` that lands the running
capital just below the next ideal target, then an unfilled day. -/
def nearTargetMonths : List Month :=
  [⟨1, "", [plainDay (some (2504 / 5)), plainDay none]⟩]

/-- The fully recalculated days of `nearTargetMonths` at rate `1/200`. -/
theorem nearTargetMonths_eval :
    flatDays (recalculatePlan (1 / 200) ⟨50000, 100000, 2⟩ nearTargetMonths) =
      [⟨1, "", 50000, 50250, 250, 1 / 200, false, "+", some (2504 / 5), "", "", "", []⟩,
       ⟨1, "", 50501, 50501, 251, 1 / 252504, false, "+", none, "", "", "", []⟩] := by
  have ra : round ((50250 : ℚ)) = 50250 := round_eq_int _ _ (by norm_num) (by norm_num)
  have rb : round ((250 : ℚ)) = 250 := round_eq_int _ _ (by norm_num) (by norm_num)
  have rc : round ((202005 : ℚ) / 4) = 50501 := round_eq_int _ _ (by norm_num) (by norm_num)
  have rd : round ((1005 : ℚ) / 4) = 251 := round_eq_int _ _ (by norm_num) (by norm_num)
  have rf : round ((252504 : ℚ) / 5) = 50501 := round_eq_int _ _ (by norm_num) (by norm_num)
  norm_num [flatDays, recalculatePlan, sanitizeConfig, plannedGoals, plannedGoalsLoop,
    walkMonths, walkDays, stepDay, goalAt, extendGoals, nearTargetMonths, plainDay,
    List.getD, round_50000, ra, rb, rc, rd, rf]

/-- C3, counterexample.  After a `+500.8` day on 50000 at rate `0.5%`, day 1
starts at the rounded capital `round(50500.8) = 50501`, equal to its ideal
target `50501` — yet its required daily rate is `50501/50500.8 − 1 =
1/252504 > 0`, because the engine compares the target against the unrounded
running capital. -/
theorem recalculatePlan_dailyRate_cex :
    ((flatDays (recalculatePlan (1 / 200) ⟨50000, 100000, 2⟩ nearTargetMonths)).getD 1
        defaultDay).target ≤
      ((flatDays (recalculatePlan (1 / 200) ⟨50000, 100000, 2⟩ nearTargetMonths)).getD 1
        defaultDay).capital ∧
    ((flatDays (recalculatePlan (1 / 200) ⟨50000, 100000, 2⟩ nearTargetMonths)).getD 1
        defaultDay).dailyRate = 1 / 252504 ∧
    ((1 : ℚ) / 252504) ≠ 0 := by
  rw [nearTargetMonths_eval]
  norm_num [List.getD]

/-- C3, witness: on whole-number data the rate is nonnegative and vanishes on
days already at or above target. -/
theorem recalculatePlan_dailyRate_witness :
    IsIntQ (sanitizeConfig ⟨50000, 100000, 3⟩).initialCapital ∧
    (∀ d ∈ flatDays wholeMonths, ∀ v, d.actual = some v → IsIntQ v) ∧
    (∀ d ∈ flatDays (recalculatePlan 0 ⟨50000, 100000, 3⟩ wholeMonths), 0 ≤ d.dailyRate) ∧
    (∀ d ∈ flatDays (recalculatePlan 0 ⟨50000, 100000, 3⟩ wholeMonths),
      d.target ≤ d.capital → d.dailyRate = 0) :=
  ⟨wholeMonths_hyps.1, wholeMonths_hyps.2,
    (recalculatePlan_dailyRate 0 ⟨50000, 100000, 3⟩ wholeMonths).1,
    (recalculatePlan_dailyRate 0 ⟨50000, 100000, 3⟩ wholeMonths).2
      wholeMonths_hyps.1 wholeMonths_hyps.2⟩

/-! ## C9: the demo scenario (50000 → 1000000 in 66 days) -/

/-- Rational bracket of the exact required rate: `1.046434 ≤ 20^(1/66) ≤
1.04644` (so the rate is ≈ 4.6436%, and in particular below 4.65%). -/
theorem rpow_rate_bounds :
    (1.046434 : ℝ) ≤ (20 : ℝ) ^ ((66 : ℝ)⁻¹) ∧ (20 : ℝ) ^ ((66 : ℝ)⁻¹) ≤ 1.04644 := by
  have h20 : (0 : ℝ) ≤ 20 := by norm_num
  have hnn : 0 ≤ (20 : ℝ) ^ ((66 : ℝ)⁻¹) := Real.rpow_nonneg h20 _
  have hpow : ((20 : ℝ) ^ ((66 : ℝ)⁻¹)) ^ (66 : ℕ) = 20 := by
    rw [← Real.rpow_natCast ((20 : ℝ) ^ ((66 : ℝ)⁻¹)) 66, ← Real.rpow_mul h20]
    norm_num
  constructor
  · by_contra hlt
    push_neg at hlt
    have hmono : ((20 : ℝ) ^ ((66 : ℝ)⁻¹)) ^ (66 : ℕ) < (1.046434 : ℝ) ^ (66 : ℕ) :=
      pow_lt_pow_left₀ hlt hnn (by norm_num)
    rw [hpow] at hmono
    have hb : ((1.046434 : ℝ)) ^ (66 : ℕ) < 20 := by norm_num
    linarith
  · by_contra hlt
    push_neg at hlt
    have hmono : ((1.04644 : ℝ)) ^ (66 : ℕ) < ((20 : ℝ) ^ ((66 : ℝ)⁻¹)) ^ (66 : ℕ) :=
      pow_lt_pow_left₀ hlt (by norm_num) (by norm_num)
    rw [hpow] at hmono
    have hb : (20 : ℝ) < (1.04644 : ℝ) ^ (66 : ℕ) := by norm_num
    linarith

/-- For the demo config, day 1 of the recalculated plan is the first input
day stepped at the initial state, and the goal it reads is the rounded
one-step compounding of 50000. -/
theorem demo_head_goal (r : ℚ) (months : List Month) (d : Day) (rest : List Day)
    (h : flatDays months = d :: rest) :
    (flatDays (recalculatePlan r ⟨50000, 1000000, 66⟩ months)).getD 0 defaultDay =
      (stepDay ⟨plannedGoals r ⟨50000, 1000000, 66⟩, 50000, 0⟩ d).1 ∧
    goalAt ⟨plannedGoals r ⟨50000, 1000000, 66⟩, 50000, 0⟩ =
      ⟨((round ((50000 : ℚ) * (1 + r)) : ℤ) : ℚ),
        ((round ((50000 : ℚ) * (1 + r) - 50000) : ℤ) : ℚ)⟩ := by
  have hsan : sanitizeConfig ⟨50000, 1000000, 66⟩ = ⟨50000, 1000000, 66⟩ :=
    sanitizeConfig_eq_self _ (by norm_num) (by norm_num) (by norm_num)
  constructor
  · rw [flatDays_recalculatePlan, hsan, h, walkDays_cons]
    rfl
  · have hlen : (plannedGoals r ⟨50000, 1000000, 66⟩).length = 66 := by
      unfold plannedGoals
      rw [plannedGoalsLoop_length]
      rfl
    have hunfold : plannedGoals r ⟨50000, 1000000, 66⟩ =
        ⟨((round ((50000 : ℚ) * (1 + r)) : ℤ) : ℚ),
          ((round ((50000 : ℚ) * (1 + r) - 50000) : ℤ) : ℚ)⟩ ::
          plannedGoalsLoop r 65 ((50000 : ℚ) * (1 + r)) := rfl
    unfold goalAt extendGoals
    rw [hlen]
    norm_num [hunfold]

/-- C9 (amended).  The exact required daily rate `20^(1/66) − 1` lies in
`[0.046434, 0.04644]` (≈ 4.6436%, not ≈ 4.66%), and for every rate in that
bracket — which contains the double the source computes — day 1 of the
recalculated default plan has rounded target 52322 and rounded profit 2322
(not ≈ 52330 / ≈ 2330). -/
theorem recalculatePlan_demo_scenario :
    ((1.046434 : ℝ) ≤ (20 : ℝ) ^ ((66 : ℝ)⁻¹) ∧ (20 : ℝ) ^ ((66 : ℝ)⁻¹) ≤ 1.04644) ∧
    ∀ r : ℚ, (1.046434 : ℚ) ≤ 1 + r → 1 + r ≤ (1.04644 : ℚ) →
      ∀ months d rest, flatDays months = d :: rest →
        ((flatDays (recalculatePlan r ⟨50000, 1000000, 66⟩ months)).getD 0
            defaultDay).target = 52322 ∧
        ((flatDays (recalculatePlan r ⟨50000, 1000000, 66⟩ months)).getD 0
            defaultDay).profit = 2322 := by
  refine ⟨rpow_rate_bounds, ?_⟩
  intro r hlo hhi months d rest h
  obtain ⟨hd, hg⟩ := demo_head_goal r months d rest h
  have hlo' : (52321.7 : ℚ) ≤ 50000 * (1 + r) := by
    have : (50000 : ℚ) * 1.046434 ≤ 50000 * (1 + r) := by linarith
    linarith [this]
  have hhi' : 50000 * (1 + r) ≤ (52322 : ℚ) := by
    have : (50000 : ℚ) * (1 + r) ≤ 50000 * 1.04644 := by linarith
    linarith [this]
  have ht : round ((50000 : ℚ) * (1 + r)) = 52322 :=
    round_eq_int _ _ (by linarith) (by linarith)
  have hp : round ((50000 : ℚ) * (1 + r) - 50000) = 2322 :=
    round_eq_int _ _ (by push_cast; linarith) (by push_cast; linarith)
  rw [hd, stepDay_fst]
  constructor
  · show (goalAt _).target = 52322
    rw [hg, ht]
    norm_num
  · show (goalAt _).profit = 2322
    rw [hg, hp]
    norm_num

/-- A fresh one-day calendar. -/
def demoMonths : List Month := [⟨1, "", [plainDay none]⟩]

/-- C9, witness: at the concrete in-bracket rate `0.046436`, day 1 of the
recalculated default plan has target 52322 and profit 2322. -/
theorem recalculatePlan_demo_scenario_witness :
    (1.046434 : ℚ) ≤ 1 + 46436 / 1000000 ∧ 1 + 46436 / 1000000 ≤ (1.04644 : ℚ) ∧
    ((flatDays (recalculatePlan (46436 / 1000000) ⟨50000, 1000000, 66⟩ demoMonths)).getD 0
        defaultDay).target = 52322 ∧
    ((flatDays (recalculatePlan (46436 / 1000000) ⟨50000, 1000000, 66⟩ demoMonths)).getD 0
        defaultDay).profit = 2322 := by
  have h := recalculatePlan_demo_scenario.2 (46436 / 1000000) (by norm_num) (by norm_num)
    demoMonths (plainDay none) [] (by simp [flatDays, demoMonths])
  exact ⟨by norm_num, by norm_num, h.1, h.2⟩

/-- C9, counterexample.  The exact rate `20^(1/66) − 1` is below 4.65% (so it
is not ≈ 4.66%), and at the in-bracket rate `0.046436` the recalculated
day-1 target is 52322 ≠ 52330 and its profit 2322 ≠ 2330. -/
theorem recalculatePlan_demo_scenario_cex :
    ((20 : ℝ) ^ ((66 : ℝ)⁻¹) - 1 < 0.0465) ∧
    ((flatDays (recalculatePlan (46436 / 1000000) ⟨50000, 1000000, 66⟩ demoMonths)).getD 0
        defaultDay).target = 52322 ∧
    ((flatDays (recalculatePlan (46436 / 1000000) ⟨50000, 1000000, 66⟩ demoMonths)).getD 0
        defaultDay).profit = 2322 ∧
    (52322 : ℚ) ≠ 52330 ∧ (2322 : ℚ) ≠ 2330 := by
  obtain ⟨hd, hg⟩ := demo_head_goal (46436 / 1000000) demoMonths (plainDay none) []
    (by simp [flatDays, demoMonths])
  have ht : round ((50000 : ℚ) * (1 + 46436 / 1000000)) = 52322 :=
    round_eq_int _ _ (by norm_num) (by norm_num)
  have hp : round ((50000 : ℚ) * (1 + 46436 / 1000000) - 50000) = 2322 :=
    round_eq_int _ _ (by norm_num) (by norm_num)
  refine ⟨by have := rpow_rate_bounds.2; norm_num at this ⊢; linarith, ?_, ?_,
    by norm_num, by norm_num⟩
  · rw [hd, stepDay_fst]
    show (goalAt _).target = 52322
    rw [hg, ht]
    norm_num
  · rw [hd, stepDay_fst]
    show (goalAt _).profit = 2322
    rw [hg, hp]
    norm_num

/-! ## The demo margin-trading engine (source lines 381-652)

The ledger state a `DemoTrader` session owns: the open positions, the
closed-trade history, the latest quotes (`pricesRef`, assumed initialized —
every operation modelled here runs after the price feed produced its first
state) and the available capital (a prop fed from the plan document).
`openTime`/`closeTime` wall-clock strings and the `chartOrder` annotation
handle are not modelled; `onTradeClose` reports the realized amount to the
plan engine and does not touch this state. -/

/-- JS string `includes` on the character lists. -/
def listContains (hay pat : List Char) : Bool :=
  match hay with
  | [] => pat.isEmpty
  | _ :: t => pat.isPrefixOf hay || listContains t pat

def strIncludes (s pat : String) : Bool := listContains s.toList pat.toList

/-- `LOT_SIZE` (source line 42). -/
def LOT_SIZE : ℚ := 100000

/-- The contract-size rule (source lines 423, 594, 601, 639, 645):
`(symbol.includes('BTC') || symbol.includes('ETH')) ? 1 : LOT_SIZE`. -/
def contractSize (symbol : String) : ℚ :=
  if strIncludes symbol "BTC" || strIncludes symbol "ETH" then 1 else LOT_SIZE

structure Quote where
  bid : ℚ
  ask : ℚ
deriving DecidableEq, Repr

/-- An open position (source lines 611-621).  `stopLoss`/`takeProfit` are
`none` for the JS `null`; the source's string inputs are parsed before
storage (`stopLoss ? parseFloat(stopLoss) : null`). -/
structure Position where
  id : ℕ
  symbol : String
  type : String
  lots : ℚ
  leverage : ℚ
  entryPrice : ℚ
  stopLoss : Option ℚ
  takeProfit : Option ℚ
  pnl : ℚ
deriving DecidableEq, Repr

/-- A closed trade (source line 426): the position's fields spread out, with
the realized pnl overwriting `pnl`, plus exit price and close reason. -/
structure ClosedTrade where
  id : ℕ
  symbol : String
  type : String
  lots : ℚ
  leverage : ℚ
  entryPrice : ℚ
  stopLoss : Option ℚ
  takeProfit : Option ℚ
  exitPrice : ℚ
  pnl : ℚ
  reason : String
deriving DecidableEq, Repr

structure TraderState where
  positions : List Position
  tradeHistory : List ClosedTrade
  quotes : List (String × Quote)
  availableCapital : ℚ
deriving DecidableEq, Repr

/-- `prices[symbol]` lookup. -/
def lookupQuote (qs : List (String × Quote)) (sym : String) : Option Quote :=
  (qs.find? (fun p => p.1 == sym)).map (·.2)

/-- The realized-pnl formula of source line 424:
`(pos.type === 'BUY' ? exitPrice − entryPrice : entryPrice − exitPrice) ×
lots × contractSize`. -/
def realizedPnl (pos : Position) (exitPrice : ℚ) : ℚ :=
  (if pos.type = "BUY" then exitPrice - pos.entryPrice else pos.entryPrice - exitPrice) *
    pos.lots * contractSize pos.symbol

def mkClosedTrade (pos : Position) (exitPrice : ℚ) (reason : String) : ClosedTrade :=
  ⟨pos.id, pos.symbol, pos.type, pos.lots, pos.leverage, pos.entryPrice, pos.stopLoss,
    pos.takeProfit, exitPrice, realizedPnl pos exitPrice, reason⟩

/-- The state effect of a completed close (source lines 436-441): prepend the
new history trade, drop the position (by id) from the open set. -/
def closeAt (pos : Position) (exitPrice : ℚ) (reason : String) (st : TraderState) :
    ClosedTrade × TraderState :=
  let t := mkClosedTrade pos exitPrice reason
  (t, { st with
    tradeHistory := t :: st.tradeHistory
    positions := st.positions.filter (fun p => p.id != pos.id) })

/-- `handleClosePosition` (source lines 407-443).  A `closePrice` of `0` is
falsy in `closePrice || (...)`, so it falls back to the quote exactly like a
missing price; the close is rejected (`none`, state unchanged) only when the
fallback is needed and no quote exists for the symbol. -/
def handleClosePosition (pos : Position) (closePrice : Option ℚ) (reason : String)
    (st : TraderState) : Option ClosedTrade × TraderState :=
  match closePrice with
  | some c =>
    if c ≠ 0 then
      let p := closeAt pos c reason st
      (some p.1, p.2)
    else
      match lookupQuote st.quotes pos.symbol with
      | some q =>
        let p := closeAt pos (if pos.type = "BUY" then q.bid else q.ask) reason st
        (some p.1, p.2)
      | none => (none, st)
  | none =>
    match lookupQuote st.quotes pos.symbol with
    | some q =>
      let p := closeAt pos (if pos.type = "BUY" then q.bid else q.ask) reason st
      (some p.1, p.2)
    | none => (none, st)

/-- `Σ (pos.pnl || 0)` of source line 599. -/
def totalPnl (positions : List Position) : ℚ :=
  positions.foldl (fun acc p => acc + p.pnl) 0

/-- `Σ entryPrice × lots × contractSize / leverage` of source lines 600-603. -/
def marginUsed (positions : List Position) : ℚ :=
  positions.foldl (fun acc p => acc + p.entryPrice * p.lots * contractSize p.symbol / p.leverage) 0

/-- `handleMarketOrder` (source lines 589-634).  `newId` stands for the fresh
`crypto.randomUUID()`.  Returns `none` (state unchanged) when no quote exists
for the selected symbol or the margin check fails. -/
def handleMarketOrder (type selectedSymbol : String) (lots leverage : ℚ)
    (stopLoss takeProfit : Option ℚ) (newId : ℕ) (st : TraderState) :
    Option Position × TraderState :=
  match lookupQuote st.quotes selectedSymbol with
  | none => (none, st)
  | some currentPrice =>
    let price := if type = "BUY" then currentPrice.ask else currentPrice.bid
    let positionValue := price * lots * contractSize selectedSymbol
    let marginRequired := positionValue / leverage
    let freeMargin := st.availableCapital + totalPnl st.positions - marginUsed st.positions
    if marginRequired > freeMargin then (none, st)
    else
      let newPosition : Position :=
        ⟨newId, selectedSymbol, type, lots, leverage, price, stopLoss, takeProfit, 0⟩
      (some newPosition, { st with positions := st.positions ++ [newPosition] })

/-- The stop-loss test of source lines 458-461 (skipped when `pos.stopLoss`
is JS-falsy, i.e. `null` or `0`). -/
def slTrigger (pos : Position) (bid ask : ℚ) : Option (ℚ × String) :=
  match pos.stopLoss with
  | some sl =>
    if sl ≠ 0 then
      if pos.type = "BUY" ∧ bid ≤ sl then some (bid, "Stop Loss Hit")
      else if pos.type = "SELL" ∧ ask ≥ sl then some (ask, "Stop Loss Hit")
      else none
    else none
  | none => none

/-- The take-profit test of source lines 462-465. -/
def tpTrigger (pos : Position) (bid ask : ℚ) : Option (ℚ × String) :=
  match pos.takeProfit with
  | some tp =>
    if tp ≠ 0 then
      if pos.type = "BUY" ∧ bid ≥ tp then some (bid, "Take Profit Hit")
      else if pos.type = "SELL" ∧ ask ≤ tp then some (ask, "Take Profit Hit")
      else none
    else none
  | none => none

/-- The per-position trigger decision of source lines 454-465: the take
profit is only consulted when the stop loss did not fire (`!shouldClose`). -/
def triggerOf (pos : Position) (bid ask : ℚ) : Option (ℚ × String) :=
  match slTrigger pos bid ask with
  | some t => some t
  | none => tpTrigger pos bid ask

/-- `checkPriceTriggers` (source lines 447-480): split the positions on the
ticked symbol into triggered and kept ones, then run `handleClosePosition`
on each triggered position with its trigger price and reason (the queued
`setPositions`/`setTradeHistory` updates of the source apply in exactly this
order on the already-filtered open set). -/
def checkPriceTriggers (symbolName : String) (bid ask : ℚ) (st : TraderState) : TraderState :=
  let positionsToClose := st.positions.filterMap fun pos =>
    if pos.symbol = symbolName then (triggerOf pos bid ask).map (fun t => (pos, t)) else none
  let updatedPositions := st.positions.filter fun pos =>
    pos.symbol != symbolName || (triggerOf pos bid ask).isNone
  positionsToClose.foldl
    (fun s pt => (handleClosePosition pt.1 (some pt.2.1) pt.2.2 s).2)
    { st with positions := updatedPositions }

/-! ## C4: margin check on market orders -/

theorem foldl_add_eq_sum {α : Type} (f : α → ℚ) (l : List α) :
    ∀ a : ℚ, l.foldl (fun acc x => acc + f x) a = a + (l.map f).sum := by
  induction l with
  | nil => intro a; simp
  | cons x xs ih => intro a; simp [ih]; ring

theorem totalPnl_eq_sum (l : List Position) : totalPnl l = (l.map (·.pnl)).sum := by
  have h := foldl_add_eq_sum (fun p : Position => p.pnl) l 0
  simpa [totalPnl] using h

theorem marginUsed_eq_sum (l : List Position) :
    marginUsed l =
      (l.map (fun p => p.entryPrice * p.lots * contractSize p.symbol / p.leverage)).sum := by
  have h := foldl_add_eq_sum
    (fun p : Position => p.entryPrice * p.lots * contractSize p.symbol / p.leverage) l 0
  simpa [marginUsed] using h

/-- C4.  For an attempted market open with a current quote: with
`marginRequired = entryPrice × lots × contractSize / leverage` and
`freeMargin = availableCapital + Σ unrealizedPnl − Σ marginUsed` over the
open positions, the open is rejected exactly when
`marginRequired > freeMargin`; a rejected open leaves the open set and the
trade history unchanged; a successful open appends exactly one new position
with `unrealizedPnl = 0` and leaves the history unchanged. -/
theorem handleMarketOrder_spec (type sym : String) (lots leverage : ℚ)
    (stopLoss takeProfit : Option ℚ) (newId : ℕ) (st : TraderState) (q : Quote)
    (hq : lookupQuote st.quotes sym = some q) :
    ((handleMarketOrder type sym lots leverage stopLoss takeProfit newId st).1 = none ↔
      (if type = "BUY" then q.ask else q.bid) * lots * contractSize sym / leverage >
        st.availableCapital + (st.positions.map (·.pnl)).sum -
          (st.positions.map
            (fun p => p.entryPrice * p.lots * contractSize p.symbol / p.leverage)).sum) ∧
    ((if type = "BUY" then q.ask else q.bid) * lots * contractSize sym / leverage >
        st.availableCapital + (st.positions.map (·.pnl)).sum -
          (st.positions.map
            (fun p => p.entryPrice * p.lots * contractSize p.symbol / p.leverage)).sum →
      (handleMarketOrder type sym lots leverage stopLoss takeProfit newId st).2 = st) ∧
    ((if type = "BUY" then q.ask else q.bid) * lots * contractSize sym / leverage ≤
        st.availableCapital + (st.positions.map (·.pnl)).sum -
          (st.positions.map
            (fun p => p.entryPrice * p.lots * contractSize p.symbol / p.leverage)).sum →
      ∃ p : Position,
        (handleMarketOrder type sym lots leverage stopLoss takeProfit newId st).1 = some p ∧
        p.pnl = 0 ∧
        (handleMarketOrder type sym lots leverage stopLoss takeProfit newId st).2.positions =
          st.positions ++ [p] ∧
        (handleMarketOrder type sym lots leverage stopLoss takeProfit newId st).2.tradeHistory =
          st.tradeHistory) := by
  simp only [handleMarketOrder, hq, totalPnl_eq_sum, marginUsed_eq_sum]
  by_cases hm : (if type = "BUY" then q.ask else q.bid) * lots * contractSize sym / leverage >
      st.availableCapital + (st.positions.map (·.pnl)).sum -
        (st.positions.map
          (fun p => p.entryPrice * p.lots * contractSize p.symbol / p.leverage)).sum
  · rw [if_pos hm]
    exact ⟨⟨fun _ => hm, fun _ => rfl⟩, fun _ => rfl, fun hle => absurd hm (not_lt.mpr hle)⟩
  · rw [if_neg hm]
    refine ⟨⟨fun h => Option.noConfusion h, fun h => absurd h hm⟩, fun h => absurd h hm,
      fun _ => ?_⟩
    exact ⟨_, rfl, rfl, rfl, rfl⟩

/-! ## C5: closing a position -/

/-- Under distinct position ids, exactly one open position carries a given
open id. -/
theorem countP_id_eq_one : ∀ (l : List Position), (l.map (·.id)).Nodup →
    ∀ pos : Position, pos ∈ l → l.countP (fun p => p.id == pos.id) = 1 := by
  intro l
  induction l with
  | nil => intro _ pos hm; cases hm
  | cons a t ih =>
    intro hnd pos hm
    simp only [List.map_cons, List.nodup_cons] at hnd
    obtain ⟨hna, hnd'⟩ := hnd
    rw [List.countP_cons]
    rcases List.mem_cons.mp hm with rfl | hmt
    · have h0 : t.countP (fun p => p.id == pos.id) = 0 := by
        rw [List.countP_eq_zero]
        intro b hb hbeq
        have hbid : b.id = pos.id := by simpa using hbeq
        exact hna (hbid ▸ List.mem_map_of_mem (·.id) hb)
      simp [h0]
    · have hane : ¬ (a.id == pos.id) = true := by
        simp only [beq_iff_eq]
        intro he
        exact hna (he ▸ List.mem_map_of_mem (·.id) hmt)
      rw [ih hnd' pos hmt]
      simp [hane]

/-- Dropping an open position by id removes exactly one element when ids are
distinct. -/
theorem filter_ne_id_length : ∀ (l : List Position), (l.map (·.id)).Nodup →
    ∀ pos : Position, pos ∈ l →
    (l.filter (fun p => p.id != pos.id)).length + 1 = l.length := by
  intro l hnd pos hm
  have h1 := countP_id_eq_one l hnd pos hm
  have h2 := List.length_eq_countP_add_countP (fun p : Position => p.id != pos.id) l
  have h3 : l.countP (fun a => decide ¬(a.id != pos.id) = true) =
      l.countP (fun p => p.id == pos.id) := by
    apply List.countP_congr
    intro a _
    cases h : (a.id == pos.id) <;> simp [bne, h]
  rw [List.countP_eq_length_filter, h3] at h2
  omega

/-- C5.  Closing an open position with no explicit price exits at the
current bid for a `BUY` (Long) and at the current ask for a `SELL` (Short);
the realized pnl is `(exit − entry) × lots × contractSize × sign(side)` with
contract size 1 for BTC/ETH-quoted instruments and 100000 otherwise; the
position is removed from the open set (exactly one element, under distinct
ids) and exactly one ClosedTrade carrying that pnl is prepended to the
history. -/
theorem handleClosePosition_spec (pos : Position) (reason : String) (st : TraderState)
    (q : Quote) (hq : lookupQuote st.quotes pos.symbol = some q) :
    ∃ t : ClosedTrade,
      (handleClosePosition pos none reason st).1 = some t ∧
      t.exitPrice = (if pos.type = "BUY" then q.bid else q.ask) ∧
      t.pnl = ((if pos.type = "BUY" then q.bid else q.ask) - pos.entryPrice) * pos.lots *
        contractSize pos.symbol * (if pos.type = "BUY" then 1 else -1) ∧
      t.reason = reason ∧
      (handleClosePosition pos none reason st).2.tradeHistory = t :: st.tradeHistory ∧
      (handleClosePosition pos none reason st).2.positions =
        st.positions.filter (fun p => p.id != pos.id) ∧
      pos ∉ (handleClosePosition pos none reason st).2.positions ∧
      ((st.positions.map (·.id)).Nodup → pos ∈ st.positions →
        (handleClosePosition pos none reason st).2.positions.length + 1 =
          st.positions.length) ∧
      contractSize pos.symbol =
        (if strIncludes pos.symbol "BTC" || strIncludes pos.symbol "ETH" then 1
          else 100000) := by
  have hstep : handleClosePosition pos none reason st =
      (some (mkClosedTrade pos (if pos.type = "BUY" then q.bid else q.ask) reason),
        { st with
          tradeHistory :=
            mkClosedTrade pos (if pos.type = "BUY" then q.bid else q.ask) reason ::
              st.tradeHistory
          positions := st.positions.filter (fun p => p.id != pos.id) }) := by
    simp only [handleClosePosition, hq, closeAt]
  refine ⟨mkClosedTrade pos (if pos.type = "BUY" then q.bid else q.ask) reason,
    by rw [hstep], rfl, ?_, rfl, by rw [hstep], by rw [hstep], ?_, ?_, rfl⟩
  · show realizedPnl pos (if pos.type = "BUY" then q.bid else q.ask) = _
    unfold realizedPnl
    split <;> ring
  · rw [hstep]
    intro hmem
    have h := (List.mem_filter.mp hmem).2
    simp at h
  · intro hnd hm
    rw [hstep]
    exact filter_ne_id_length st.positions hnd pos hm

/-- A fresh session quoting EUR/USD at 1.0854/1.0856 with capital 1000. -/
def demoTrader : TraderState :=
  ⟨[], [], [("EUR/USD", ⟨10854 / 10000, 10856 / 10000⟩)], 1000⟩

/-- The same session with only 5 units of capital. -/
def poorTrader : TraderState :=
  ⟨[], [], [("EUR/USD", ⟨10854 / 10000, 10856 / 10000⟩)], 5⟩

/-- C4, witness: buying 0.01 lots EUR/USD at ask 1.0856 and leverage 100
requires margin 10.856 — accepted on capital 1000 (one position with zero
pnl appended, history untouched), rejected untouched on capital 5. -/
theorem handleMarketOrder_spec_witness :
    lookupQuote demoTrader.quotes "EUR/USD" = some ⟨10854 / 10000, 10856 / 10000⟩ ∧
    (∃ p : Position,
      (handleMarketOrder "BUY" "EUR/USD" (1 / 100) 100 none none 7 demoTrader).1 = some p ∧
      p.pnl = 0 ∧
      (handleMarketOrder "BUY" "EUR/USD" (1 / 100) 100 none none 7 demoTrader).2.positions =
        demoTrader.positions ++ [p] ∧
      (handleMarketOrder "BUY" "EUR/USD" (1 / 100) 100 none none 7 demoTrader).2.tradeHistory =
        demoTrader.tradeHistory) ∧
    (handleMarketOrder "BUY" "EUR/USD" (1 / 100) 100 none none 7 poorTrader).1 = none ∧
    (handleMarketOrder "BUY" "EUR/USD" (1 / 100) 100 none none 7 poorTrader).2 = poorTrader := by
  have hcs : contractSize "EUR/USD" = 100000 := by
    have h1 : strIncludes "EUR/USD" "BTC" = false := by decide
    have h2 : strIncludes "EUR/USD" "ETH" = false := by decide
    simp [contractSize, h1, h2, LOT_SIZE]
  have hq1 : lookupQuote demoTrader.quotes "EUR/USD" =
      some ⟨10854 / 10000, 10856 / 10000⟩ := by
    simp [lookupQuote, demoTrader, List.find?]
  have hq2 : lookupQuote poorTrader.quotes "EUR/USD" =
      some ⟨10854 / 10000, 10856 / 10000⟩ := by
    simp [lookupQuote, poorTrader, List.find?]
  have h1 := handleMarketOrder_spec "BUY" "EUR/USD" (1 / 100) 100 none none 7 demoTrader _ hq1
  have h2 := handleMarketOrder_spec "BUY" "EUR/USD" (1 / 100) 100 none none 7 poorTrader _ hq2
  refine ⟨hq1, h1.2.2 ?_, h2.1.mpr ?_, h2.2.1 ?_⟩
  · norm_num [demoTrader, hcs]
  · norm_num [poorTrader, hcs]
  · norm_num [poorTrader, hcs]

/-- An open Short of 2 units on the crypto pair BTC/USD entered at 65000. -/
def cryptoPos : Position := ⟨3, "BTC/USD", "SELL", 2, 1, 65000, none, none, 0⟩

def cryptoTrader : TraderState := ⟨[cryptoPos], [], [("BTC/USD", ⟨64400, 64500⟩)], 0⟩

/-- C5, witness: closing the Short with no explicit price exits at the ask
64500 with realized pnl `(65000 − 64500) × 2 × 1 = 1000` (contract size 1 on
a BTC pair); the open set empties and the trade is prepended. -/
theorem handleClosePosition_spec_witness :
    lookupQuote cryptoTrader.quotes cryptoPos.symbol = some ⟨64400, 64500⟩ ∧
    ∃ t : ClosedTrade,
      (handleClosePosition cryptoPos none "Manual Close" cryptoTrader).1 = some t ∧
      t.exitPrice = 64500 ∧
      t.pnl = 1000 ∧
      (handleClosePosition cryptoPos none "Manual Close" cryptoTrader).2.tradeHistory =
        t :: cryptoTrader.tradeHistory ∧
      (handleClosePosition cryptoPos none "Manual Close" cryptoTrader).2.positions = [] := by
  have hq : lookupQuote cryptoTrader.quotes cryptoPos.symbol = some ⟨64400, 64500⟩ := by
    simp [lookupQuote, cryptoTrader, cryptoPos, List.find?]
  have hb : (strIncludes "BTC/USD" "BTC" || strIncludes "BTC/USD" "ETH") = true := by decide
  have hcs : contractSize cryptoPos.symbol = 1 := by
    simp [contractSize, cryptoPos, hb]
  obtain ⟨t, h1, h2, h3, h4, h5, h6, h7, h8, h9⟩ :=
    handleClosePosition_spec cryptoPos "Manual Close" cryptoTrader _ hq
  have hne : ¬("SELL" = "BUY") := by decide
  refine ⟨hq, t, h1, ?_, ?_, h5, ?_⟩
  · rw [h2]
    norm_num [cryptoPos, hne]
  · rw [h3, hcs]
    norm_num [cryptoPos, hne]
  · rw [h6]
    simp [cryptoTrader, cryptoPos, List.filter]

/-! ## C6: stop-loss / take-profit triggers -/

/-- A stop-loss trigger closes at the tick's own bid or ask. -/
theorem slTrigger_price {pos : Position} {bid ask pr : ℚ} {rs : String}
    (h : slTrigger pos bid ask = some (pr, rs)) : pr = bid ∨ pr = ask := by
  unfold slTrigger at h
  rcases hsl : pos.stopLoss with _ | sl <;> rw [hsl] at h <;> dsimp only at h
  · cases h
  · split_ifs at h <;>
      · simp only [Option.some.injEq, Prod.mk.injEq] at h
        first
          | exact Or.inl h.1.symm
          | exact Or.inr h.1.symm

/-- A take-profit trigger closes at the tick's own bid or ask. -/
theorem tpTrigger_price {pos : Position} {bid ask pr : ℚ} {rs : String}
    (h : tpTrigger pos bid ask = some (pr, rs)) : pr = bid ∨ pr = ask := by
  unfold tpTrigger at h
  rcases htp : pos.takeProfit with _ | tp <;> rw [htp] at h <;> dsimp only at h
  · cases h
  · split_ifs at h <;>
      · simp only [Option.some.injEq, Prod.mk.injEq] at h
        first
          | exact Or.inl h.1.symm
          | exact Or.inr h.1.symm

/-- A trigger always closes at the tick's own bid or ask. -/
theorem triggerOf_price {pos : Position} {bid ask pr : ℚ} {rs : String}
    (h : triggerOf pos bid ask = some (pr, rs)) : pr = bid ∨ pr = ask := by
  unfold triggerOf at h
  cases hsl : slTrigger pos bid ask with
  | some t =>
    simp only [hsl] at h
    injection h with h'
    subst h'
    exact slTrigger_price hsl
  | none =>
    simp only [hsl] at h
    exact tpTrigger_price h

/-- Running the queued `handleClosePosition` calls over triggered positions
whose ids are absent from the current open set neither touches the open set
nor drops a trade: each close prepends exactly its ClosedTrade. -/
theorem foldl_close_keeps (L : List (Position × ℚ × String)) : ∀ st : TraderState,
    (∀ pt ∈ L, pt.2.1 ≠ 0) →
    (∀ pt ∈ L, ∀ p ∈ st.positions, p.id ≠ pt.1.id) →
    (L.foldl (fun s pt => (handleClosePosition pt.1 (some pt.2.1) pt.2.2 s).2) st).positions
        = st.positions ∧
    (L.foldl (fun s pt => (handleClosePosition pt.1 (some pt.2.1) pt.2.2 s).2)
        st).tradeHistory
        = (L.map (fun pt => mkClosedTrade pt.1 pt.2.1 pt.2.2)).reverse ++ st.tradeHistory := by
  induction L with
  | nil => intro st _ _; simp
  | cons pt L ih =>
    intro st hnz hdisj
    have hz := hnz pt (List.mem_cons_self _ _)
    have hstep : (handleClosePosition pt.1 (some pt.2.1) pt.2.2 st).2 =
        { st with
          tradeHistory := mkClosedTrade pt.1 pt.2.1 pt.2.2 :: st.tradeHistory
          positions := (st.positions.filter (fun p => p.id != pt.1.id)) } := by
      simp only [handleClosePosition, closeAt, if_pos hz]
    have hfilter : st.positions.filter (fun p => p.id != pt.1.id) = st.positions := by
      rw [List.filter_eq_self]
      intro a ha
      simp only [bne_iff_ne, ne_eq]
      exact hdisj pt (List.mem_cons_self _ _) a ha
    rw [List.foldl_cons, hstep, hfilter]
    obtain ⟨hp, hh⟩ := ih
      { st with tradeHistory := mkClosedTrade pt.1 pt.2.1 pt.2.2 :: st.tradeHistory }
      (fun pt' h => hnz pt' (List.mem_cons_of_mem _ h))
      (fun pt' h p hpm => hdisj pt' (List.mem_cons_of_mem _ h) p hpm)
    refine ⟨hp, ?_⟩
    rw [hh]
    simp

/-- The list of positions on the ticked symbol whose trigger fired, paired
with their trigger price and reason (`positionsToClose`, source line 449). -/
def triggeredOn (symbolName : String) (bid ask : ℚ) (st : TraderState) :
    List (Position × ℚ × String) :=
  st.positions.filterMap fun pos =>
    if pos.symbol = symbolName then (triggerOf pos bid ask).map (fun t => (pos, t)) else none

/-- The kept open set (`updatedPositions`, source line 451). -/
def keptOn (symbolName : String) (bid ask : ℚ) (st : TraderState) : List Position :=
  st.positions.filter fun pos =>
    pos.symbol != symbolName || (triggerOf pos bid ask).isNone

theorem triggeredOn_spec (symbolName : String) (bid ask : ℚ) (st : TraderState) :
    ∀ pt ∈ triggeredOn symbolName bid ask st,
      pt.1 ∈ st.positions ∧ pt.1.symbol = symbolName ∧
        triggerOf pt.1 bid ask = some pt.2 := by
  intro pt hpt
  obtain ⟨pos, hmem, hf⟩ := List.mem_filterMap.mp hpt
  by_cases hs : pos.symbol = symbolName
  · rw [if_pos hs] at hf
    obtain ⟨t, ht, hpt'⟩ := Option.map_eq_some'.mp hf
    cases hpt'
    exact ⟨hmem, hs, ht⟩
  · rw [if_neg hs] at hf
    cases hf

/-- C6.  On a tick `(bid, ask)` for an instrument: every open position on it
is tested stop-loss first, take-profit only when the stop-loss did not fire;
the positions that remain open are exactly the untriggered ones, in order,
unaffected by the closed ones; each triggered position contributes exactly
one closed trade at its trigger price and reason; and the four trigger
conditions are as documented (Long SL at `bid ≤ stopLoss` closing at bid,
Short SL at `ask ≥ stopLoss` closing at ask, Long TP at `bid ≥ takeProfit`
closing at bid, Short TP at `ask ≤ takeProfit` closing at ask; a Long
satisfying both SL and TP bounds fires the SL, by the fifth conjunct,
whose hypotheses do not exclude the TP condition). -/
theorem checkPriceTriggers_spec (symbolName : String) (bid ask : ℚ) (st : TraderState)
    (hnd : (st.positions.map (·.id)).Nodup) (hb : bid ≠ 0) (ha : ask ≠ 0) :
    (checkPriceTriggers symbolName bid ask st).positions =
      keptOn symbolName bid ask st ∧
    (checkPriceTriggers symbolName bid ask st).tradeHistory =
      (st.positions.filterMap (fun pos =>
        if pos.symbol = symbolName then
          (triggerOf pos bid ask).map (fun t => mkClosedTrade pos t.1 t.2)
        else none)).reverse ++ st.tradeHistory ∧
    (∀ pos ∈ st.positions, pos.symbol = symbolName → (triggerOf pos bid ask).isSome →
      pos ∉ (checkPriceTriggers symbolName bid ask st).positions) ∧
    (∀ pos ∈ st.positions, pos.symbol ≠ symbolName ∨ triggerOf pos bid ask = none →
      pos ∈ (checkPriceTriggers symbolName bid ask st).positions) ∧
    (∀ pos : Position, ∀ sl, pos.stopLoss = some sl → sl ≠ 0 → pos.type = "BUY" →
      bid ≤ sl → triggerOf pos bid ask = some (bid, "Stop Loss Hit")) ∧
    (∀ pos : Position, ∀ sl, pos.stopLoss = some sl → sl ≠ 0 → pos.type = "SELL" →
      ask ≥ sl → triggerOf pos bid ask = some (ask, "Stop Loss Hit")) ∧
    (∀ pos : Position, ∀ tp, slTrigger pos bid ask = none → pos.takeProfit = some tp →
      tp ≠ 0 → pos.type = "BUY" → bid ≥ tp →
      triggerOf pos bid ask = some (bid, "Take Profit Hit")) ∧
    (∀ pos : Position, ∀ tp, slTrigger pos bid ask = none → pos.takeProfit = some tp →
      tp ≠ 0 → pos.type = "SELL" → ask ≤ tp →
      triggerOf pos bid ask = some (ask, "Take Profit Hit")) := by
  have hnz : ∀ pt ∈ triggeredOn symbolName bid ask st, pt.2.1 ≠ 0 := by
    intro pt hpt
    obtain ⟨_, _, ht⟩ := triggeredOn_spec symbolName bid ask st pt hpt
    rcases @triggerOf_price pt.1 bid ask pt.2.1 pt.2.2 ht with h | h
    · rw [h]; exact hb
    · rw [h]; exact ha
  have hdisj : ∀ pt ∈ triggeredOn symbolName bid ask st,
      ∀ p ∈ keptOn symbolName bid ask st, p.id ≠ pt.1.id := by
    intro pt hpt p hp hid
    obtain ⟨hmem, hsym, ht⟩ := triggeredOn_spec symbolName bid ask st pt hpt
    obtain ⟨hpmem, hpred⟩ := List.mem_filter.mp hp
    have heq : p = pt.1 := List.inj_on_of_nodup_map hnd hpmem hmem hid
    rw [heq, hsym, ht] at hpred
    simp at hpred
  have hck : checkPriceTriggers symbolName bid ask st =
      (triggeredOn symbolName bid ask st).foldl
        (fun s pt => (handleClosePosition pt.1 (some pt.2.1) pt.2.2 s).2)
        { st with positions := keptOn symbolName bid ask st } := rfl
  have hkeep := foldl_close_keeps (triggeredOn symbolName bid ask st)
    { st with positions := keptOn symbolName bid ask st } hnz hdisj
  have hA : (checkPriceTriggers symbolName bid ask st).positions =
      keptOn symbolName bid ask st := by
    rw [hck]
    exact hkeep.1
  refine ⟨hA, ?_, ?_, ?_, ?_, ?_, ?_, ?_⟩
  · rw [hck, hkeep.2]
    congr 1
    unfold triggeredOn
    rw [List.map_filterMap]
    congr 1
    apply List.filterMap_congr
    intro pos _
    by_cases hs : pos.symbol = symbolName
    · rw [if_pos hs, if_pos hs]
      cases triggerOf pos bid ask <;> rfl
    · rw [if_neg hs, if_neg hs]
      rfl
  · intro pos hmem hsym hsome
    rw [hA]
    intro hin
    have hpred := (List.mem_filter.mp hin).2
    rw [hsym] at hpred
    rcases Option.isSome_iff_exists.mp hsome with ⟨t, ht⟩
    rw [ht] at hpred
    simp at hpred
  · intro pos hmem hcond
    rw [hA]
    apply List.mem_filter.mpr
    refine ⟨hmem, ?_⟩
    rcases hcond with h | h
    · simp [h]
    · simp [h]
  · intro pos sl hsl hz hty hle
    unfold triggerOf slTrigger
    rw [hsl]
    dsimp only
    rw [if_pos hz, if_pos ⟨hty, hle⟩]
  · intro pos sl hsl hz hty hge
    unfold triggerOf slTrigger
    rw [hsl]
    dsimp only
    have hne : ¬(pos.type = "BUY" ∧ bid ≤ sl) := by
      intro hc
      rw [hty] at hc
      exact absurd hc.1 (by decide)
    rw [if_pos hz, if_neg hne, if_pos ⟨hty, hge⟩]
  · intro pos tp hslnone htp hz hty hge
    unfold triggerOf
    rw [hslnone]
    unfold tpTrigger
    rw [htp]
    dsimp only
    rw [if_pos hz, if_pos ⟨hty, hge⟩]
  · intro pos tp hslnone htp hz hty hle
    unfold triggerOf
    rw [hslnone]
    unfold tpTrigger
    rw [htp]
    dsimp only
    have hne : ¬(pos.type = "BUY" ∧ bid ≥ tp) := by
      intro hc
      rw [hty] at hc
      exact absurd hc.1 (by decide)
    rw [if_pos hz, if_neg hne, if_pos ⟨hty, hle⟩]

/-- A Long with stop loss 1.08, hit by a bid of 1.0799. -/
def posSL : Position := ⟨1, "EUR/USD", "BUY", 1, 1, 10850 / 10000, some (108 / 100), none, 0⟩

/-- A Long with stop loss 1.07, not hit by a bid of 1.0799. -/
def posKeep : Position := ⟨2, "EUR/USD", "BUY", 1, 1, 10850 / 10000, some (107 / 100), none, 0⟩

def tickTrader : TraderState :=
  ⟨[posSL, posKeep], [], [("EUR/USD", ⟨10799 / 10000, 10801 / 10000⟩)], 1000⟩

/-- C6, witness: on the tick `(1.0799, 1.0801)` the 1.08-stop Long closes at
the bid with reason Stop Loss Hit, while the 1.07-stop Long survives
unaffected. -/
theorem checkPriceTriggers_spec_witness :
    (tickTrader.positions.map (·.id)).Nodup ∧
    (10799 / 10000 : ℚ) ≠ 0 ∧ (10801 / 10000 : ℚ) ≠ 0 ∧
    triggerOf posSL (10799 / 10000) (10801 / 10000) =
      some (10799 / 10000, "Stop Loss Hit") ∧
    triggerOf posKeep (10799 / 10000) (10801 / 10000) = none ∧
    (checkPriceTriggers "EUR/USD" (10799 / 10000) (10801 / 10000) tickTrader).positions =
      [posKeep] ∧
    (checkPriceTriggers "EUR/USD" (10799 / 10000) (10801 / 10000) tickTrader).tradeHistory =
      [mkClosedTrade posSL (10799 / 10000) "Stop Loss Hit"] := by
  have hnd : (tickTrader.positions.map (·.id)).Nodup := by
    simp [tickTrader, posSL, posKeep]
  have hb : (10799 / 10000 : ℚ) ≠ 0 := by norm_num
  have ha : (10801 / 10000 : ℚ) ≠ 0 := by norm_num
  have t1 : triggerOf posSL (10799 / 10000) (10801 / 10000) =
      some (10799 / 10000, "Stop Loss Hit") := by
    have h1 : ((108 : ℚ) / 100) ≠ 0 := by norm_num
    have h2 : (10799 / 10000 : ℚ) ≤ 108 / 100 := by norm_num
    unfold triggerOf slTrigger
    rw [show posSL.stopLoss = some (108 / 100) from rfl]
    dsimp only
    rw [if_pos h1, if_pos ⟨rfl, h2⟩]
  have t2 : triggerOf posKeep (10799 / 10000) (10801 / 10000) = none := by
    have h1 : ((107 : ℚ) / 100) ≠ 0 := by norm_num
    have hc1 : ¬(posKeep.type = "BUY" ∧ (10799 / 10000 : ℚ) ≤ 107 / 100) := by
      rintro ⟨_, hle⟩
      norm_num at hle
    have hc2 : ¬(posKeep.type = "SELL" ∧ (10801 / 10000 : ℚ) ≥ 107 / 100) := by
      rintro ⟨he, _⟩
      exact absurd he (by decide)
    unfold triggerOf slTrigger tpTrigger
    rw [show posKeep.stopLoss = some (107 / 100) from rfl]
    dsimp only
    rw [if_pos h1, if_neg hc1, if_neg hc2]
    rfl
  obtain ⟨hA, hB, _⟩ :=
    checkPriceTriggers_spec "EUR/USD" (10799 / 10000) (10801 / 10000) tickTrader hnd hb ha
  have hs1 : (posSL.symbol != "EUR/USD") = false := by decide
  have hs2 : (posKeep.symbol != "EUR/USD") = false := by decide
  have hq1 : posSL.symbol = "EUR/USD" := by decide
  have hq2 : posKeep.symbol = "EUR/USD" := by decide
  refine ⟨hnd, hb, ha, t1, t2, ?_, ?_⟩
  · rw [hA]
    unfold keptOn
    show List.filter _ [posSL, posKeep] = _
    simp [List.filter_cons, hs1, hs2, t1, t2]
  · rw [hB]
    show (List.filterMap _ [posSL, posKeep]).reverse ++ ([] : List ClosedTrade) = _
    simp [List.filterMap_cons, hq1, hq2, t1, t2]

/-! ## C10: the deep copy and the in-place mutation

`recalculatePlan` deep-copies `fullData.months` via the JSON round-trip
(source line 172) and then mutates the day objects of the copy in place
through the flattened alias `allDays`.  To settle claim C10 (the caller's
document is never mutated) we model the object graph explicitly: day
objects live in a heap (a list of cells addressed by index), a months array
is a list of `MonthRef`s holding cell addresses, the deep copy allocates
fresh cells at the end of the heap, and the walk writes through the
addresses.  All day fields are JSON-serializable, so the round-trip copy is
value-faithful. -/

/-- Dereference a day cell. -/
def readDay (heap : List Day) (a : ℕ) : Day := heap.getD a defaultDay

/-- A month object whose `days` array holds references into the heap. -/
structure MonthRef where
  id : ℤ
  monthName : String
  dayAddrs : List ℕ
deriving DecidableEq, Repr

def readMonth (heap : List Day) (m : MonthRef) : Month :=
  ⟨m.id, m.monthName, m.dayAddrs.map (readDay heap)⟩

def readMonths (heap : List Day) (ms : List MonthRef) : List Month :=
  ms.map (readMonth heap)

/-- All day addresses of a months array, in calendar order. -/
def flatAddrs (ms : List MonthRef) : List ℕ :=
  ms.foldr (fun m acc => m.dayAddrs ++ acc) []

/-- Copy one month: append value copies of its days to the heap and return a
fresh month object referencing the new cells. -/
def copyMonth (heap : List Day) (m : MonthRef) : List Day × MonthRef :=
  (heap ++ m.dayAddrs.map (readDay heap),
    ⟨m.id, m.monthName, (List.range m.dayAddrs.length).map (· + heap.length)⟩)

/-- `JSON.parse(JSON.stringify(fullData.months))`: a fresh months structure
over freshly allocated day cells. -/
def deepCopyMonths (heap : List Day) : List MonthRef → List Day × List MonthRef
  | [] => (heap, [])
  | m :: ms =>
    let p := copyMonth heap m
    let rest := deepCopyMonths p.1 ms
    (rest.1, p.2 :: rest.2)

/-- The day loop of lines 193-218 writing through the day references. -/
def walkAddrs (s : RState) (heap : List Day) : List ℕ → List Day × RState
  | [] => (heap, s)
  | a :: as =>
    let p := stepDay s (readDay heap a)
    walkAddrs p.2 (heap.set a p.1) as

def walkMonthRefs (s : RState) (heap : List Day) : List MonthRef → List Day × RState
  | [] => (heap, s)
  | m :: ms =>
    let p := walkAddrs s heap m.dayAddrs
    walkMonthRefs p.2 p.1 ms

/-- `recalculatePlan` on the object graph: deep-copy the months, then walk
the copy writing the financial fields in place; the copied months structure
is returned. -/
def recalculatePlanInPlace (r : ℚ) (cfg : Config) (heap : List Day) (ms : List MonthRef) :
    List Day × List MonthRef :=
  let c := sanitizeConfig cfg
  let copied := deepCopyMonths heap ms
  ((walkMonthRefs ⟨plannedGoals r c, c.initialCapital, 0⟩ copied.1 copied.2).1, copied.2)

/-! ### Heap access lemmas -/

theorem readDay_append (heap ext : List Day) (a : ℕ) (h : a < heap.length) :
    readDay (heap ++ ext) a = readDay heap a :=
  List.getD_append heap ext defaultDay a h

theorem readDay_append_right (heap ext : List Day) (i : ℕ) :
    readDay (heap ++ ext) (heap.length + i) = readDay ext i := by
  unfold readDay
  rw [List.getD_append_right heap ext defaultDay _ (Nat.le_add_right _ _)]
  congr 1
  omega

theorem readDay_set_self (heap : List Day) (a : ℕ) (d : Day) (h : a < heap.length) :
    readDay (heap.set a d) a = d := by
  unfold readDay
  rw [List.getD_eq_getElem?_getD, List.getElem?_set_self h]
  rfl

theorem readDay_set_ne (heap : List Day) (a b : ℕ) (d : Day) (h : a ≠ b) :
    readDay (heap.set a d) b = readDay heap b := by
  unfold readDay
  rw [List.getD_eq_getElem?_getD, List.getElem?_set_ne h, ← List.getD_eq_getElem?_getD]

theorem map_getD_range {α : Type} (l : List α) (d : α) :
    (List.range l.length).map (fun i => l.getD i d) = l := by
  induction l with
  | nil => rfl
  | cons x xs ih =>
    rw [List.length_cons, List.range_succ_eq_map, List.map_cons, List.map_map]
    refine congrArg₂ _ rfl ?_
    calc (List.range xs.length).map ((fun i => (x :: xs).getD i d) ∘ Nat.succ)
        = (List.range xs.length).map (fun i => xs.getD i d) := by
          apply List.map_congr_left
          intro i _
          rfl
      _ = xs := ih

theorem flatAddrs_cons (m : MonthRef) (ms : List MonthRef) :
    flatAddrs (m :: ms) = m.dayAddrs ++ flatAddrs ms := rfl

theorem mem_flatAddrs {ms : List MonthRef} {m : MonthRef} {a : ℕ}
    (hm : m ∈ ms) (ha : a ∈ m.dayAddrs) : a ∈ flatAddrs ms := by
  induction ms with
  | nil => cases hm
  | cons m' ms ih =>
    rw [flatAddrs_cons, List.mem_append]
    rcases List.mem_cons.mp hm with rfl | h
    · exact Or.inl ha
    · exact Or.inr (ih h)

theorem readMonth_congr {h1 h2 : List Day} {m : MonthRef}
    (h : ∀ a ∈ m.dayAddrs, readDay h1 a = readDay h2 a) :
    readMonth h1 m = readMonth h2 m := by
  unfold readMonth
  rw [List.map_congr_left h]

theorem copyMonth_length (heap : List Day) (m : MonthRef) :
    (copyMonth heap m).1.length = heap.length + m.dayAddrs.length := by
  unfold copyMonth
  dsimp only
  rw [List.length_append, List.length_map]

theorem copyMonth_addr_bounds (heap : List Day) (m : MonthRef) :
    ∀ a ∈ (copyMonth heap m).2.dayAddrs,
      heap.length ≤ a ∧ a < (copyMonth heap m).1.length := by
  intro a ha
  unfold copyMonth at ha ⊢
  dsimp only at ha ⊢
  obtain ⟨i, hi, rfl⟩ := List.mem_map.mp ha
  have hik := List.mem_range.mp hi
  refine ⟨by omega, ?_⟩
  rw [List.length_append, List.length_map]
  omega

theorem copyMonth_addr_nodup (heap : List Day) (m : MonthRef) :
    (copyMonth heap m).2.dayAddrs.Nodup := by
  unfold copyMonth
  dsimp only
  exact (List.nodup_range _).map (fun a b h => by omega)

/-- The copied month reads back to the original month: the deep copy is
value-faithful. -/
theorem copyMonth_read (heap : List Day) (m : MonthRef) :
    readMonth (copyMonth heap m).1 (copyMonth heap m).2 = readMonth heap m := by
  unfold readMonth copyMonth
  dsimp only
  refine congrArg (fun ds => Month.mk m.id m.monthName ds) ?_
  rw [List.map_map]
  have hk : m.dayAddrs.length = (m.dayAddrs.map (readDay heap)).length :=
    (List.length_map _ _).symm
  rw [hk]
  have h1 : ∀ i ∈ List.range (m.dayAddrs.map (readDay heap)).length,
      (readDay (heap ++ m.dayAddrs.map (readDay heap)) ∘ (· + heap.length)) i =
        (fun i => (m.dayAddrs.map (readDay heap)).getD i defaultDay) i := by
    intro i _
    show readDay (heap ++ _) (i + heap.length) = _
    rw [Nat.add_comm, readDay_append_right]
    rfl
  rw [List.map_congr_left h1, map_getD_range]

/-- The deep copy: the heap only grows, existing cells are untouched, the
fresh months reference only fresh (pairwise distinct) cells, and — for a
valid input document — the copy reads back to the original months. -/
theorem deepCopyMonths_spec : ∀ (ms : List MonthRef) (heap : List Day),
    heap.length ≤ (deepCopyMonths heap ms).1.length ∧
    (∀ a, a < heap.length → readDay (deepCopyMonths heap ms).1 a = readDay heap a) ∧
    (∀ a ∈ flatAddrs (deepCopyMonths heap ms).2,
      heap.length ≤ a ∧ a < (deepCopyMonths heap ms).1.length) ∧
    (flatAddrs (deepCopyMonths heap ms).2).Nodup ∧
    ((∀ m ∈ ms, ∀ a ∈ m.dayAddrs, a < heap.length) →
      readMonths (deepCopyMonths heap ms).1 (deepCopyMonths heap ms).2 =
        readMonths heap ms) := by
  intro ms
  induction ms with
  | nil =>
    intro heap
    exact ⟨le_refl _, fun a _ => rfl,
      fun a ha => absurd ha (by simp [flatAddrs, deepCopyMonths]),
      by simp [flatAddrs, deepCopyMonths], fun _ => rfl⟩
  | cons m ms ih =>
    intro heap
    obtain ⟨ih1, ih2, ih3, ih4, ih5⟩ := ih (copyMonth heap m).1
    have hlen : heap.length ≤ (copyMonth heap m).1.length := by
      rw [copyMonth_length]
      omega
    have hd : deepCopyMonths heap (m :: ms) =
        ((deepCopyMonths (copyMonth heap m).1 ms).1,
          (copyMonth heap m).2 :: (deepCopyMonths (copyMonth heap m).1 ms).2) := rfl
    rw [hd]
    refine ⟨le_trans hlen ih1, ?_, ?_, ?_, ?_⟩
    · intro a ha
      rw [ih2 a (lt_of_lt_of_le ha hlen)]
      exact readDay_append heap _ a ha
    · intro a ha
      rw [flatAddrs_cons, List.mem_append] at ha
      rcases ha with h | h
      · obtain ⟨hge, hlt⟩ := copyMonth_addr_bounds heap m a h
        exact ⟨hge, lt_of_lt_of_le hlt ih1⟩
      · obtain ⟨hge, hlt⟩ := ih3 a h
        exact ⟨le_trans hlen hge, hlt⟩
    · rw [flatAddrs_cons, List.nodup_append]
      refine ⟨copyMonth_addr_nodup heap m, ih4, ?_⟩
      intro a ha hb
      have h1 := (copyMonth_addr_bounds heap m a ha).2
      have h2 := (ih3 a hb).1
      omega
    · intro hvalid
      show readMonth _ (copyMonth heap m).2 :: readMonths _ _ =
        readMonth heap m :: readMonths heap ms
      have e1 : readMonth (deepCopyMonths (copyMonth heap m).1 ms).1 (copyMonth heap m).2 =
          readMonth (copyMonth heap m).1 (copyMonth heap m).2 :=
        readMonth_congr (fun a ha => ih2 a (copyMonth_addr_bounds heap m a ha).2)
      have e2 := ih5 (fun m' hm' a ha' =>
        lt_of_lt_of_le (hvalid m' (List.mem_cons_of_mem _ hm') a ha') hlen)
      have e3 : readMonths (copyMonth heap m).1 ms = readMonths heap ms := by
        apply List.map_congr_left
        intro m' hm'
        exact readMonth_congr (fun a ha =>
          readDay_append heap _ a (hvalid m' (List.mem_cons_of_mem _ hm') a ha))
      rw [e1, copyMonth_read, e2, e3]

/-- The day loop through references: the heap keeps its length, cells not
in the address list are untouched, and reading the written cells back gives
exactly the pure walk of the read days, with the same final state. -/
theorem walkAddrs_spec : ∀ (as : List ℕ) (s : RState) (heap : List Day),
    as.Nodup → (∀ a ∈ as, a < heap.length) →
    (walkAddrs s heap as).1.length = heap.length ∧
    (∀ b, b ∉ as → readDay (walkAddrs s heap as).1 b = readDay heap b) ∧
    as.map (readDay (walkAddrs s heap as).1) = (walkDays s (as.map (readDay heap))).1 ∧
    (walkAddrs s heap as).2 = (walkDays s (as.map (readDay heap))).2 := by
  intro as
  induction as with
  | nil => intro s heap _ _; exact ⟨rfl, fun b _ => rfl, rfl, rfl⟩
  | cons a as ih =>
    intro s heap hnd hbound
    obtain ⟨hna, hnd'⟩ := List.nodup_cons.mp hnd
    have ha : a < heap.length := hbound a (List.mem_cons_self _ _)
    have hbound' : ∀ b ∈ as, b < (heap.set a (stepDay s (readDay heap a)).1).length := by
      intro b hb
      rw [List.length_set]
      exact hbound b (List.mem_cons_of_mem _ hb)
    obtain ⟨ih1, ih2, ih3, ih4⟩ := ih (stepDay s (readDay heap a)).2
      (heap.set a (stepDay s (readDay heap a)).1) hnd' hbound'
    have hw : walkAddrs s heap (a :: as) =
        walkAddrs (stepDay s (readDay heap a)).2
          (heap.set a (stepDay s (readDay heap a)).1) as := rfl
    have hreads : as.map (readDay (heap.set a (stepDay s (readDay heap a)).1)) =
        as.map (readDay heap) := by
      apply List.map_congr_left
      intro b hb
      exact readDay_set_ne heap a b _ (fun he => hna (he ▸ hb))
    have hwd : walkDays s ((a :: as).map (readDay heap)) =
        ((stepDay s (readDay heap a)).1 ::
            (walkDays (stepDay s (readDay heap a)).2 (as.map (readDay heap))).1,
          (walkDays (stepDay s (readDay heap a)).2 (as.map (readDay heap))).2) := by
      rw [List.map_cons, walkDays_cons]
    refine ⟨?_, ?_, ?_, ?_⟩
    · rw [hw, ih1, List.length_set]
    · intro b hb
      have hb1 : b ≠ a := fun he => hb (by rw [he]; exact List.mem_cons_self _ _)
      have hb2 : b ∉ as := fun hm => hb (List.mem_cons_of_mem _ hm)
      rw [hw, ih2 b hb2, readDay_set_ne heap a b _ (Ne.symm hb1)]
    · rw [hw, List.map_cons, hwd]
      dsimp only
      congr 1
      · rw [ih2 a hna, readDay_set_self heap a _ ha]
      · rw [ih3, hreads]
    · rw [hw, ih4, hreads, hwd]

/-- The month loop through references: writes stay inside the months'
addresses, and the written months read back to exactly the pure
month-by-month walk of the read months. -/
theorem walkMonthRefs_spec : ∀ (mrs : List MonthRef) (s : RState) (heap : List Day),
    (flatAddrs mrs).Nodup → (∀ a ∈ flatAddrs mrs, a < heap.length) →
    (walkMonthRefs s heap mrs).1.length = heap.length ∧
    (∀ b, b ∉ flatAddrs mrs → readDay (walkMonthRefs s heap mrs).1 b = readDay heap b) ∧
    readMonths (walkMonthRefs s heap mrs).1 mrs =
      (walkMonths s (readMonths heap mrs)).1 ∧
    (walkMonthRefs s heap mrs).2 = (walkMonths s (readMonths heap mrs)).2 := by
  intro mrs
  induction mrs with
  | nil => intro s heap _ _; exact ⟨rfl, fun b _ => rfl, rfl, rfl⟩
  | cons m mrs ih =>
    intro s heap hnd hbound
    rw [flatAddrs_cons] at hnd hbound
    obtain ⟨hnd1, hnd2, hdisj⟩ := List.nodup_append.mp hnd
    have hbm : ∀ a ∈ m.dayAddrs, a < heap.length := fun a ha =>
      hbound a (List.mem_append.mpr (Or.inl ha))
    obtain ⟨wa1, wa2, wa3, wa4⟩ := walkAddrs_spec m.dayAddrs s heap hnd1 hbm
    have hbound' : ∀ a ∈ flatAddrs mrs, a < (walkAddrs s heap m.dayAddrs).1.length := by
      intro a ha
      rw [wa1]
      exact hbound a (List.mem_append.mpr (Or.inr ha))
    obtain ⟨ih1, ih2, ih3, ih4⟩ := ih (walkAddrs s heap m.dayAddrs).2
      (walkAddrs s heap m.dayAddrs).1 hnd2 hbound'
    have hw : walkMonthRefs s heap (m :: mrs) =
        walkMonthRefs (walkAddrs s heap m.dayAddrs).2 (walkAddrs s heap m.dayAddrs).1
          mrs := rfl
    have hmonths1 : readMonths (walkAddrs s heap m.dayAddrs).1 mrs = readMonths heap mrs := by
      apply List.map_congr_left
      intro m' hm'
      apply readMonth_congr
      intro a ha
      exact wa2 a (fun hin => hdisj hin (mem_flatAddrs hm' ha))
    have hwm : walkMonths s (readMonths heap (m :: mrs)) =
        ((⟨m.id, m.monthName, (walkDays s (m.dayAddrs.map (readDay heap))).1⟩ : Month)
            :: (walkMonths (walkDays s (m.dayAddrs.map (readDay heap))).2
                (readMonths heap mrs)).1,
          (walkMonths (walkDays s (m.dayAddrs.map (readDay heap))).2
            (readMonths heap mrs)).2) := by
      show walkMonths s (readMonth heap m :: readMonths heap mrs) = _
      rw [walkMonths]
      rfl
    refine ⟨?_, ?_, ?_, ?_⟩
    · rw [hw, ih1, wa1]
    · intro b hb
      rw [flatAddrs_cons, List.mem_append] at hb
      push_neg at hb
      rw [hw, ih2 b hb.2, wa2 b hb.1]
    · show readMonth _ m :: readMonths _ mrs = _
      rw [hwm]
      dsimp only
      congr 1
      · have e1 : readMonth (walkMonthRefs (walkAddrs s heap m.dayAddrs).2
            (walkAddrs s heap m.dayAddrs).1 mrs).1 m =
            readMonth (walkAddrs s heap m.dayAddrs).1 m :=
          readMonth_congr (fun a ha => ih2 a (fun hin => hdisj ha hin))
        rw [hw, e1]
        unfold readMonth
        rw [wa3]
      · rw [hw, ih3, hmonths1, wa4]
    · rw [hw, ih4, hmonths1, wa4, hwm]

/-- C10.  On the object graph, `recalculatePlan` never mutates its argument:
every pre-existing heap cell — in particular every day object of the input
months — is unchanged, the caller's months read back identically after the
call, the returned months structure references only freshly allocated
cells, and reading the returned structure gives exactly the pure
recalculation of the input document.  A caller's document therefore changes
only by assigning the returned value. -/
theorem recalculatePlan_no_mutation (r : ℚ) (cfg : Config) (heap : List Day)
    (ms : List MonthRef)
    (hvalid : ∀ m ∈ ms, ∀ a ∈ m.dayAddrs, a < heap.length) :
    (∀ a, a < heap.length →
      readDay (recalculatePlanInPlace r cfg heap ms).1 a = readDay heap a) ∧
    readMonths (recalculatePlanInPlace r cfg heap ms).1 ms = readMonths heap ms ∧
    (∀ m' ∈ (recalculatePlanInPlace r cfg heap ms).2, ∀ a ∈ m'.dayAddrs,
      heap.length ≤ a) ∧
    readMonths (recalculatePlanInPlace r cfg heap ms).1
        (recalculatePlanInPlace r cfg heap ms).2 =
      recalculatePlan r cfg (readMonths heap ms) := by
  obtain ⟨dc1, dc2, dc3, dc4, dc5⟩ := deepCopyMonths_spec ms heap
  have hboundcopy : ∀ a ∈ flatAddrs (deepCopyMonths heap ms).2,
      a < (deepCopyMonths heap ms).1.length := fun a ha => (dc3 a ha).2
  obtain ⟨wm1, wm2, wm3, wm4⟩ := walkMonthRefs_spec (deepCopyMonths heap ms).2
    ⟨plannedGoals r (sanitizeConfig cfg), (sanitizeConfig cfg).initialCapital, 0⟩
    (deepCopyMonths heap ms).1 dc4 hboundcopy
  have hrp : recalculatePlanInPlace r cfg heap ms =
      ((walkMonthRefs ⟨plannedGoals r (sanitizeConfig cfg),
          (sanitizeConfig cfg).initialCapital, 0⟩
        (deepCopyMonths heap ms).1 (deepCopyMonths heap ms).2).1,
        (deepCopyMonths heap ms).2) := rfl
  have hA : ∀ a, a < heap.length →
      readDay (recalculatePlanInPlace r cfg heap ms).1 a = readDay heap a := by
    intro a ha
    rw [hrp]
    have hnot : a ∉ flatAddrs (deepCopyMonths heap ms).2 := by
      intro hin
      exact absurd (dc3 a hin).1 (not_le.mpr ha)
    rw [wm2 a hnot, dc2 a ha]
  refine ⟨hA, ?_, ?_, ?_⟩
  · apply List.map_congr_left
    intro m' hm'
    exact readMonth_congr (fun a ha => hA a (hvalid m' hm' a ha))
  · intro m' hm' a ha
    rw [hrp] at hm'
    exact (dc3 a (mem_flatAddrs hm' ha)).1
  · rw [hrp]
    dsimp only
    rw [wm3, dc5 hvalid]
    rfl

def heap0 : List Day := [plainDay (some 5), plainDay none]

def msRef0 : List MonthRef := [⟨1, "M", [0, 1]⟩]

/-- C10, witness: on a valid two-day document the recalculation leaves the
input months readable unchanged and returns a months structure referencing
only fresh cells. -/
theorem recalculatePlan_no_mutation_witness :
    (∀ m ∈ msRef0, ∀ a ∈ m.dayAddrs, a < heap0.length) ∧
    readMonths (recalculatePlanInPlace 0 ⟨50000, 100000, 2⟩ heap0 msRef0).1 msRef0 =
      readMonths heap0 msRef0 ∧
    (∀ m' ∈ (recalculatePlanInPlace 0 ⟨50000, 100000, 2⟩ heap0 msRef0).2,
      ∀ a ∈ m'.dayAddrs, heap0.length ≤ a) := by
  have hvalid : ∀ m ∈ msRef0, ∀ a ∈ m.dayAddrs, a < heap0.length := by decide
  obtain ⟨_, h2, h3, _⟩ :=
    recalculatePlan_no_mutation 0 ⟨50000, 100000, 2⟩ heap0 msRef0 hvalid
  exact ⟨hvalid, h2, h3⟩
